import Mathlib

/-!
Verification of the lexsy placeholder engine. The TypeScript source is
shallowly embedded: document text is `List Char`, JS `Map`/`Set` are
association lists / lists preserving insertion order, JS numbers are exact
decimals `Option (Int × Nat)` (`none` is NaN; the value is `n / 10 ^ k`;
IEEE rounding is not modelled, which is exact for every magnitude these
claims touch), and every regular expression of the source is compiled by
hand into an equivalent scanner over `List Char` (ASCII case folding, which
covers the alphabet the source works with).
-/

set_option maxRecDepth 20000

namespace Lexsy

/-- Document text and all other JS strings are lists of characters. -/
abbrev Str := List Char

/-- ASCII lower-casing, the case folding used by the source's `toLowerCase()`
and `i` regex flags. -/
def lcChar (c : Char) : Char :=
  if 'A' ≤ c ∧ c ≤ 'Z' then Char.ofNat (c.toNat + 32) else c

def lowerStr (s : Str) : Str := s.map lcChar

def isDigitC (c : Char) : Bool := '0' ≤ c && c ≤ '9'

/-- Regex `\w`: letters, digits, underscore. -/
def isWordC (c : Char) : Bool :=
  isDigitC c || ('a' ≤ c && c ≤ 'z') || ('A' ≤ c && c ≤ 'Z') || c = '_'

/-- Regex `\s` (the whitespace characters the documents use). -/
def isWsC (c : Char) : Bool := c.isWhitespace

/-- JS `String.prototype.trim`. -/
def trimStr (s : Str) : Str :=
  ((s.dropWhile isWsC).reverse.dropWhile isWsC).reverse

/-- JS `String.prototype.substring(a, b)` (with `a ≤ b`). -/
def substrFT (s : Str) (a b : Nat) : Str := (s.take b).drop a

/-- JS `String.prototype.startsWith`. -/
def startsWithStr (s p : Str) : Bool := p.isPrefixOf s

/-- JS `String.prototype.endsWith`. -/
def endsWithStr (s p : Str) : Bool := p.isSuffixOf s

/-- JS `String.prototype.includes` (substring test). -/
def includesStr (s p : Str) : Bool :=
  match s with
  | [] => p.isPrefixOf []
  | _ :: t => p.isPrefixOf s || includesStr t p

/-- JS `String.prototype.indexOf`, `-1` when absent. -/
def indexOfAux (p : Str) : Str → Nat → Int
  | [], i => if p.isPrefixOf [] then (i : Int) else -1
  | c :: t, i => if p.isPrefixOf (c :: t) then (i : Int) else indexOfAux p t (i + 1)

def indexOfStr (s p : Str) : Int := indexOfAux p s 0

/-- JS `String.prototype.lastIndexOf`, `-1` when absent. -/
def lastIndexOfAux (p : Str) : Str → Nat → Int → Int
  | [], i, best => if p.isPrefixOf [] then (i : Int) else best
  | c :: t, i, best =>
    lastIndexOfAux p t (i + 1) (if p.isPrefixOf (c :: t) then (i : Int) else best)

def lastIndexOfStr (s p : Str) : Int := lastIndexOfAux p s 0 (-1)

/-- Number of occurrences of `pat` in `s` (every start position counted). -/
def countOcc (pat : Str) : Str → Nat
  | [] => if pat = [] then 1 else 0
  | c :: s => (if pat.isPrefixOf (c :: s) then 1 else 0) + countOcc pat s

/-- Case-insensitive "matches at this position" test for a literal pattern. -/
def ciPrefix (p s : Str) : Bool := (s.take p.length).map lcChar = p.map lcChar

/-- The `$` character, which triggers ECMAScript `GetSubstitution` expansion
inside a replacement string. -/
def dollarC : Char := '$'

/-- The backquote character (code 96): a dollar-backquote pair in a
replacement string selects the text before the match. -/
def btickC : Char := Char.ofNat 96

/-- The apostrophe character (code 39): a dollar-apostrophe pair in a
replacement string selects the text after the match. -/
def squoteC : Char := Char.ofNat 39

/-- ECMAScript `GetSubstitution` for a pattern with no capture groups
(`m` the matched text, `pre` the part of the subject before the match,
`post` the part after it): `$$` yields a literal dollar, `$&` the matched
text, a dollar-backquote pair `pre`, a dollar-apostrophe pair `post`; every
other `$` stays literal (`$1`..`$9` exceed the zero group count, and there
are no named groups for a dollar-`<` pair). -/
def getSubst (m pre post : Str) : Str → Str
  | [] => []
  | [c] => if c = dollarC then [dollarC] else [c]
  | c :: d :: rest2 =>
    if c = dollarC then
      if d = dollarC then dollarC :: getSubst m pre post rest2
      else if d = '&' then m ++ getSubst m pre post rest2
      else if d = btickC then pre ++ getSubst m pre post rest2
      else if d = squoteC then post ++ getSubst m pre post rest2
      else dollarC :: d :: getSubst m pre post rest2
    else c :: getSubst m pre post (d :: rest2)

/-- JS `s.replace(pat, rep)` for a plain-string pattern: replace the first
(leftmost) occurrence only, expanding the `$`-substitution patterns of the
replacement string (`before` accumulates the already-scanned part of the
subject, the match's before-context for `GetSubstitution`). -/
def replaceFirstAux (pat rep : Str) : Str → Str → Str
  | _, [] => []
  | before, c :: s' =>
    if pat.isPrefixOf (c :: s') then
      getSubst pat before ((c :: s').drop pat.length) rep ++ (c :: s').drop pat.length
    else c :: replaceFirstAux pat rep (before ++ [c]) s'

def replaceFirst (pat rep : Str) (s : Str) : Str :=
  if pat = [] then getSubst [] [] s rep ++ s
  else replaceFirstAux pat rep [] s

/-- `replaceFirst` with the replacement inserted literally: the two agree
whenever the replacement contains no `$` character (`replaceFirstEqLit`),
which is the only case the positive theorems below cover; the `$`-expanding
form above is the program's behavior. -/
def replaceFirstLit (pat rep : Str) : Str → Str
  | [] => if pat = [] then rep else []
  | c :: s' =>
    if pat = [] then rep ++ c :: s'
    else if pat.isPrefixOf (c :: s') then rep ++ (c :: s').drop pat.length
    else c :: replaceFirstLit pat rep s'

/-- JS `s.replace(regex-of-escaped-literal with flags gi, rep)`: replace every
(leftmost-first, non-overlapping) case-insensitive occurrence, expanding the
`$`-substitution patterns of the replacement against each match (`$&` is the
matched slice of the subject with its original case; `before` accumulates the
original text left of the current position). The fuel is the remaining
length; with a nonempty pattern every step consumes at least one character,
so the fuel never runs out. -/
def replaceAllCIAux (pat rep : Str) : Nat → Str → Str → Str
  | 0, _, s => s
  | _ + 1, _, [] => []
  | fuel + 1, before, c :: s' =>
    if ciPrefix pat (c :: s') then
      getSubst ((c :: s').take pat.length) before ((c :: s').drop pat.length) rep ++
        replaceAllCIAux pat rep fuel (before ++ (c :: s').take pat.length)
          ((c :: s').drop pat.length)
    else c :: replaceAllCIAux pat rep fuel (before ++ [c]) s'

def replaceAllCI (pat rep s : Str) : Str :=
  if pat = [] then s else replaceAllCIAux pat rep s.length [] s

/-- `replaceAllCI` with the replacement inserted literally (agrees with it
when the replacement contains no `$` character, see `replaceAllCIEqLit`). -/
def replaceAllLitAux (pat rep : Str) : Nat → Str → Str
  | 0, s => s
  | _ + 1, [] => []
  | fuel + 1, c :: s' =>
    if ciPrefix pat (c :: s') then
      rep ++ replaceAllLitAux pat rep fuel ((c :: s').drop pat.length)
    else c :: replaceAllLitAux pat rep fuel s'

def replaceAllLit (pat rep s : Str) : Str :=
  if pat = [] then s else replaceAllLitAux pat rep s.length s

/-- `s.substring(0, i) ++ ins ++ s.substring(i + len)`: the splice idiom the
source uses to rewrite one occurrence in place. -/
def spliceReplace (s : Str) (i len : Nat) (ins : Str) : Str :=
  s.take i ++ ins ++ s.drop (i + len)

/-- Decimal digits of a natural number, most significant first. -/
def natDigits (n : Nat) : Str := Nat.toDigits 10 n

def natToStr (n : Nat) : Str := natDigits n

/-! ### JS numbers as exact decimals

A JS number is modelled as `Option (Int × Nat)`: `none` is `NaN`, and
`some (n, k)` is the exact value `n / 10 ^ k`. Every number reaching
`parseFloat` in this code is a finite decimal, so the model is exact. -/

abbrev JNum := Option (Int × Nat)

/-- Digits (already verified) to a natural number. -/
def digitsVal (ds : Str) : Nat :=
  ds.foldl (fun a c => a * 10 + (c.toNat - '0'.toNat)) 0

/-- JS `parseFloat` on the decimal fragment (exponents never arise here). -/
def parseFloatD (s : Str) : JNum :=
  let s1 := s.dropWhile isWsC
  let (sg, s2) : Int × Str :=
    match s1 with
    | '-' :: r => (-1, r)
    | '+' :: r => (1, r)
    | _ => (1, s1)
  let ip := s2.takeWhile isDigitC
  let s3 := s2.drop ip.length
  let fp :=
    match s3 with
    | '.' :: r => r.takeWhile isDigitC
    | _ => []
  if ip = [] ∧ fp = [] then none
  else some (sg * (digitsVal (ip ++ fp) : Int), fp.length)

/-- Multiply a JS number by `10 ^ e` (the source's `* 1000` / `* 1000000`). -/
def jmulPow10 (v : JNum) (e : Nat) : JNum :=
  match v with
  | none => none
  | some (n, k) => if e ≤ k then some (n, k - e) else some (n * (10 ^ (e - k) : Nat), 0)

/-- Drop trailing zero decimals (used by `Number.prototype.toString`). -/
def normDec : Int → Nat → Int × Nat
  | n, 0 => (n, 0)
  | n, k + 1 => if n % 10 = 0 then normDec (n / 10) k else (n, k + 1)

/-- JS `Number.prototype.toString` (plain decimal; the exponential form for
astronomic values never arises from these inputs). -/
def jsNumToString : JNum → Str
  | none => "NaN".data
  | some (n, k) =>
    let (n, k) := normDec n k
    let sign : Str := if n < 0 then ['-'] else []
    let ds := natDigits n.natAbs
    if k = 0 then sign ++ ds
    else
      let ds := List.replicate (k + 1 - ds.length) '0' ++ ds
      sign ++ ds.take (ds.length - k) ++ '.' :: ds.drop (ds.length - k)

/-- Comma grouping of a digit string, as `toLocaleString('en-US')` does
(applied to the reversed digits; fuel bounds the chunk count). -/
def groupAux : Nat → Str → Str
  | 0, r => r
  | _ + 1, [] => []
  | fuel + 1, a :: t =>
    let c := (a :: t).take 3
    let rest := (a :: t).drop 3
    if rest = [] then c else c ++ ',' :: groupAux fuel rest

def groupThousands (ds : Str) : Str := (groupAux ds.length ds.reverse).reverse

/-- JS `Number.prototype.toLocaleString('en-US')`: thousands separators,
at most three fraction digits (rounded half away from zero). -/
def toLocaleStringUS : JNum → Str
  | none => "NaN".data
  | some (n, k) =>
    let sign : Str := if n < 0 then ['-'] else []
    let m := n.natAbs
    let r : Nat :=
      if k ≤ 3 then m * 10 ^ (3 - k)
      else (2 * m + 10 ^ (k - 3)) / (2 * 10 ^ (k - 3))
    let i := r / 1000
    let f := r % 1000
    let intS := groupThousands (natDigits i)
    let fracS : Str :=
      if f = 0 then []
      else
        let fd := natDigits f
        let pad := List.replicate (3 - fd.length) '0' ++ fd
        '.' :: (pad.reverse.dropWhile (fun c => c = '0')).reverse
    sign ++ intS ++ fracS

/-! ### Data model (`src/app/types/placeholders.ts`) -/

inductive PType
  | square | curly | doubleCurly | angle | currencyBlank
deriving DecidableEq

inductive Party
  | company | investor
deriving DecidableEq

def partyStr : Party → Str
  | .company => "company".data
  | .investor => "investor".data

/-- `PlaceholderInfo`. The source's field name for the literal value prepended
to formatted values is renamed `pfx` here (environment naming constraint);
it is the source's `prefix` field. -/
structure PlaceholderInfo where
  key : Str
  originalFormat : Str
  pfx : Str
  type : PType
  context : Option Party := none
  position : Option Nat := none
deriving DecidableEq

structure PlaceholderData where
  info : PlaceholderInfo
  value : Str
deriving DecidableEq

/-! ### ValueFormatter (`extractValue`, DocumentProcessor lines 208-240) -/

/-- The suffix alternation of `/[\d,]+(?:\.\d+)?(?:k|K|thousand|million|M)?/i`,
tried in source order; returns the matched characters (as they appear). -/
def numSuffixAlts : List Str :=
  ["k".data, "K".data, "thousand".data, "million".data, "M".data]

def firstCIAlt (alts : List Str) (s : Str) : Str :=
  match alts with
  | [] => []
  | a :: rest => if ciPrefix a s then s.take a.length else firstCIAlt rest s

/-- First match of `/[\d,]+(?:\.\d+)?(?:k|K|thousand|million|M)?/i` in `s`
(the `numberMatch` of the source). -/
def numTokenMatch (s : Str) : Option Str :=
  match s.findIdx? (fun c => isDigitC c || c = ',') with
  | none => none
  | some i =>
    let t := s.drop i
    let ip := t.takeWhile (fun c => isDigitC c || c = ',')
    let r1 := t.drop ip.length
    let fr : Str :=
      match r1 with
      | '.' :: r2 =>
        let ds := r2.takeWhile isDigitC
        if ds = [] then [] else '.' :: ds
      | _ => []
    let r2 := r1.drop fr.length
    some (ip ++ fr ++ firstCIAlt numSuffixAlts r2)

def digitRunLen (s : Str) : Nat := (s.takeWhile isDigitC).length

def wsRunLen (s : Str) : Nat := (s.takeWhile isWsC).length

/-- Tail of date alternative 1 after the day digits: `,?\s+(\d{4})`. -/
def afterDayPart (s : Str) : Bool :=
  let s1 := match s with | ',' :: t => t | _ => s
  let w := wsRunLen s1
  decide (1 ≤ w) && decide (4 ≤ digitRunLen (s1.drop w))

/-- Date alternative `(\w+)\s+(\d{1,2}),?\s+(\d{4})` matching at the head. -/
def alt1At (s : Str) : Bool :=
  let w := (s.takeWhile isWordC).length
  if w = 0 then false
  else
    let s1 := s.drop w
    let ws := wsRunLen s1
    if ws = 0 then false
    else
      let s2 := s1.drop ws
      let d := digitRunLen s2
      if d = 0 then false
      else afterDayPart (s2.drop (min d 2)) || (min d 2 = 2 && afterDayPart (s2.drop 1))

/-- Date alternative `(\d{1,2})\/(\d{1,2})\/(\d{4})` matching at the head. -/
def alt2At (s : Str) : Bool :=
  let d1 := digitRunLen s
  if 1 ≤ d1 ∧ d1 ≤ 2 then
    match s.drop d1 with
    | '/' :: s2 =>
      let d2 := digitRunLen s2
      if 1 ≤ d2 ∧ d2 ≤ 2 then
        match s2.drop d2 with
        | '/' :: s3 => decide (4 ≤ digitRunLen s3)
        | _ => false
      else false
    | _ => false
  else false

/-- Truthiness of `value.match(/(\w+)\s+(\d{1,2}),?\s+(\d{4})|(\d{1,2})\/(\d{1,2})\/(\d{4})/)`. -/
def dateRegexTest (s : Str) : Bool :=
  (List.range (s.length + 1)).any (fun i => alt1At (s.drop i) || alt2At (s.drop i))

/-- `extractValue` (DocumentProcessor lines 208-240), translated clause by
clause from the source. -/
def extractValue (input : Str) (ph : PlaceholderInfo) : Str :=
  let value := trimStr input
  let value :=
    if ph.pfx = "$".data || includesStr (lowerStr ph.key) "amount".data
        || includesStr (lowerStr ph.key) "valuation".data then
      match numTokenMatch value with
      | some tok =>
        let numStr := tok.filter (fun c => ¬ c = ',')
        let numStr2 :=
          if includesStr (lowerStr numStr) "k".data then
            jsNumToString (jmulPow10 (parseFloatD numStr) 3)
          else if includesStr (lowerStr numStr) "m".data
              || includesStr (lowerStr numStr) "million".data then
            jsNumToString (jmulPow10 (parseFloatD numStr) 6)
          else numStr
        '$' :: toLocaleStringUS (parseFloatD numStr2)
      | none => if startsWithStr value "$".data then value else '$' :: value
    else value
  if includesStr (lowerStr ph.key) "date".data then
    -- the source tests the date regex and then returns `value` on both paths
    if dateRegexTest value then value else value
  else value

/-! ### Association-list model of JS `Map` / `Set`

`Map.set` updates an existing key in place (keeping its insertion position)
or appends a new binding; `Set.add` appends when absent. -/

abbrev PMap := List (Str × PlaceholderInfo)

def mget {α : Type} (m : List (Str × α)) (k : Str) : Option α :=
  (m.find? (fun p => decide (p.1 = k))).map (fun p => p.2)

def mset {α : Type} (m : List (Str × α)) (k : Str) (v : α) : List (Str × α) :=
  if (mget m k).isSome then m.map (fun p => if p.1 = k then (k, v) else p)
  else m ++ [(k, v)]

def keysOf {α : Type} (m : List (Str × α)) : List Str := m.map (fun p => p.1)

def sadd (s : List Str) (x : Str) : List Str := if x ∈ s then s else s ++ [x]

/-! ### Generic non-overlapping regex scan (`g` flag / `exec` loop)

`m prev s` decides whether the pattern matches at the head of `s` (with the
previous character available for `\b` and `^` assertions) and returns the
match length plus a payload. -/

def gScanPAux {β : Type} (m : Option Char → Str → Option (Nat × β)) :
    Nat → Option Char → Str → Nat → List (Nat × Nat × β)
  | 0, _, _, _ => []
  | _ + 1, _, [], _ => []
  | fuel + 1, prev, c :: cs, i =>
    match m prev (c :: cs) with
    | some (len, b) =>
      (i, len, b) :: gScanPAux m fuel (some ((c :: cs).getD (len - 1) c)) ((c :: cs).drop len) (i + len)
    | none => gScanPAux m fuel (some c) cs (i + 1)

def gScanP {β : Type} (m : Option Char → Str → Option (Nat × β)) (s : Str) :
    List (Nat × Nat × β) :=
  gScanPAux m s.length none s 0

/-! ### PlaceholderScanner (`extractPlaceholders`, FileUpload lines 15-365) -/

/-- Matcher for the currency-blank pattern `/\$\[([_ ]+)\]/g`. -/
def currencyMatchAt (_ : Option Char) (s : Str) : Option (Nat × Unit) :=
  match s with
  | '$' :: '[' :: rest =>
    let r := (rest.takeWhile (fun c => c = '_' || c = ' ')).length
    if 0 < r then
      match rest.drop r with
      | ']' :: _ => some (r + 3, ())
      | _ => none
    else none
  | _ => none

/-- Matcher for `/\{\{([^}]+)\}\}/g`; payload is the captured group. -/
def dcurlyMatchAt (s : Str) : Option (Nat × Str) :=
  match s with
  | '\x7b' :: '\x7b' :: rest =>
    let inner := rest.takeWhile (fun c => ¬ c = '\x7d')
    if inner = [] then none
    else
      match rest.drop inner.length with
      | '\x7d' :: '\x7d' :: _ => some (inner.length + 4, inner)
      | _ => none
  | _ => none

/-- Matcher for `/<<([^>]+)>>/g`. -/
def angleMatchAt (s : Str) : Option (Nat × Str) :=
  match s with
  | '<' :: '<' :: rest =>
    let inner := rest.takeWhile (fun c => ¬ c = '>')
    if inner = [] then none
    else
      match rest.drop inner.length with
      | '>' :: '>' :: _ => some (inner.length + 4, inner)
      | _ => none
  | _ => none

/-- Matcher for `/\[([^\]]+)\]/g`. -/
def squareMatchAt (s : Str) : Option (Nat × Str) :=
  match s with
  | '[' :: rest =>
    let inner := rest.takeWhile (fun c => ¬ c = ']')
    if inner = [] then none
    else
      match rest.drop inner.length with
      | ']' :: _ => some (inner.length + 2, inner)
      | _ => none
  | _ => none

/-- Matcher for `/\{([^}]+)\}/g`. -/
def curlyMatchAt (s : Str) : Option (Nat × Str) :=
  match s with
  | '\x7b' :: rest =>
    let inner := rest.takeWhile (fun c => ¬ c = '\x7d')
    if inner = [] then none
    else
      match rest.drop inner.length with
      | '\x7d' :: _ => some (inner.length + 2, inner)
      | _ => none
  | _ => none

/-- The source's `patterns` array, in application order. -/
def literalPatterns : List ((Str → Option (Nat × Str)) × PType) :=
  [(dcurlyMatchAt, .doubleCurly), (angleMatchAt, .angle),
   (squareMatchAt, .square), (curlyMatchAt, .curly)]

/-- Regex `\s*$` with the `m` flag, as it backtracks at the end of a match:
returns the number of whitespace characters consumed so that the position
right after them is end-of-string or just before a `'\n'`. -/
def wsStarDollar : Str → Option Nat
  | [] => some 0
  | c :: cs =>
    if isWsC c then
      match wsStarDollar cs with
      | some k => some (k + 1)
      | none => if c = '\n' then some 0 else none
    else if c = '\n' then some 0
    else none

def lineStart (prev : Option Char) : Bool :=
  match prev with
  | none => true
  | some c => c = '\n'

/-- One alternative of `/\[COMPANY\]|COMPANY:|^COMPANY\s*$/gim` matching at
the head. -/
def sigCompanyAt (prev : Option Char) (s : Str) : Bool :=
  ciPrefix "[COMPANY]".data s || ciPrefix "COMPANY:".data s ||
    (lineStart prev && ciPrefix "COMPANY".data s && (wsStarDollar (s.drop 7)).isSome)

/-- One alternative of `/INVESTOR:|^INVESTOR\s*$/gim` matching at the head. -/
def sigInvestorAt (prev : Option Char) (s : Str) : Bool :=
  ciPrefix "INVESTOR:".data s ||
    (lineStart prev && ciPrefix "INVESTOR".data s && (wsStarDollar (s.drop 8)).isSome)

/-- `/by:\s*$/gim` matching at the head. -/
def byAt (_ : Option Char) (s : Str) : Bool :=
  ciPrefix "by:".data s && (wsStarDollar (s.drop 3)).isSome

/-- Truthiness of `regex.test` : does the pattern match anywhere? -/
def existsScan (m : Option Char → Str → Bool) : Option Char → Str → Bool
  | _, [] => false
  | prev, c :: cs => m prev (c :: cs) || existsScan m (some c) cs

/-- `key.replace(/\s+/g, ' ')`: each maximal whitespace run becomes one
space. The flag records whether the current position is inside a run whose
space has already been emitted. -/
def collapseWsAux : Bool → Str → Str
  | _, [] => []
  | inWs, c :: t =>
    if isWsC c then
      if inWs then collapseWsAux true t else ' ' :: collapseWsAux true t
    else c :: collapseWsAux false t

def collapseWs (s : Str) : Str := collapseWsAux false s

/-- The result of `checkSignatureContext` (FileUpload lines 121-140). -/
structure SigCtx where
  isInSignatureBlock : Bool
  hasCompanyMarker : Bool
  hasInvestorMarker : Bool
  beforeText : Str

def checkSignatureContext (text : Str) (idx len : Nat) : SigCtx :=
  let startPos := idx - 1000
  let endPos := min text.length (idx + len + 500)
  let surrounding := substrFT text startPos endPos
  let hasC := existsScan sigCompanyAt none surrounding
  let hasI := existsScan sigInvestorAt none surrounding
  let hasBy := existsScan byAt none surrounding
  let hasW := includesStr (lowerStr surrounding) "in witness".data
  { isInSignatureBlock := hasC || hasI || hasBy || hasW
    hasCompanyMarker := hasC
    hasInvestorMarker := hasI
    beforeText := lowerStr (substrFT text startPos idx) }

/-- Processing of one literal-pattern match (FileUpload lines 99-191).
State is `(seenFormats, placeholders)`. -/
def litStep (text : Str) (ty : PType) (st : List Str × PMap) (m : Nat × Nat × Str) : List Str × PMap :=
  let idx := m.1
  let len := m.2.1
  let innerRaw := m.2.2
  let originalFormat := substrFT text idx (idx + len)
  let key := trimStr innerRaw
  if key ≠ [] ∧ key.all (fun c => c = '_' || c = ' ') then st
  else if originalFormat ∈ st.1 then st
  else
    let seen := st.1 ++ [originalFormat]
    let normalizedKey := trimStr (collapseWs key)
    if normalizedKey = [] then (seen, st.2)
    else
      let lowerKey := lowerStr normalizedKey
      let sig := checkSignatureContext text idx len
      let normalizedKey :=
        if normalizedKey = "COMPANY".data ∧ sig.isInSignatureBlock then "Company Name".data
        else normalizedKey
      let normalizedKey :=
        if (lowerKey = "name".data ∨ lowerKey = "title".data) ∧ sig.isInSignatureBlock then
          let ci := lastIndexOfStr sig.beforeText "company".data
          let ii := lastIndexOfStr sig.beforeText "investor".data
          let isCompany :=
            if ci > ii ∧ ci ≥ 0 then true
            else if ii ≥ 0 ∧ ii > ci then false
            else sig.hasCompanyMarker && ¬ sig.hasInvestorMarker
          if isCompany then
            (if lowerKey = "name".data then "Company Name Field".data else "Company Title".data)
          else
            (if lowerKey = "name".data then "Investor Name".data else "Investor Title".data)
        else normalizedKey
      if (¬ (normalizedKey = "Company Name".data ∧ originalFormat = "[COMPANY]".data))
          ∧ (mget st.2 normalizedKey).isSome then (seen, st.2)
      else (seen, mset st.2 normalizedKey ⟨normalizedKey, originalFormat, [], ty, none, none⟩)

/-- The second (literal-pattern) pass, all four patterns sharing `seenFormats`. -/
def literalPass (text : Str) (ph0 : PMap) : PMap :=
  (literalPatterns.foldl
    (fun st pt => ((gScanP (fun _ s => pt.1 s) text).map (fun m => (m.1, m.2.1, m.2.2))).foldl
      (litStep text pt.2) st)
    (([] : List Str), ph0)).2

/-- One detected currency blank with its lower-cased ±100-character context. -/
structure CBlank where
  index : Nat
  format : Str
  ctx : Str
deriving DecidableEq

def currencyBlanksOf (text : Str) : List CBlank :=
  (gScanP currencyMatchAt text).map (fun m =>
    { index := m.1
      format := substrFT text m.1 (m.1 + m.2.1)
      ctx := lowerStr (substrFT text (m.1 - 100) (min text.length (m.1 + m.2.1 + 100))) })

def hasValKw (ctx : Str) : Bool :=
  includesStr ctx "valuation".data || includesStr ctx "cap".data
    || includesStr ctx "post-money".data

def hasPurKw (ctx : Str) : Bool :=
  includesStr ctx "purchase".data || includesStr ctx "investment".data
    || includesStr ctx "amount".data

def paKey : Str := "Purchase Amount".data

def capKey : Str := "Post-Money Valuation Cap".data

def mkCurrencyInfo (k f : Str) : PlaceholderInfo :=
  ⟨k, f, "$".data, .currencyBlank, none, none⟩

structure CurState where
  pur : List Str
  cap : List Str
  ph : PMap
deriving DecidableEq

/-- Processing of one currency blank (FileUpload lines 46-93). -/
def currencyStep (st : CurState) (b : CBlank) : CurState :=
  if hasValKw b.ctx then
    if b.format ∈ st.cap then st
    else { st with cap := sadd st.cap b.format,
                   ph := mset st.ph capKey (mkCurrencyInfo capKey b.format) }
  else if hasPurKw b.ctx then
    if b.format ∈ st.pur then st
    else { st with pur := sadd st.pur b.format,
                   ph := mset st.ph paKey (mkCurrencyInfo paKey b.format) }
  else if st.pur = [] then
    { st with pur := sadd st.pur b.format,
              ph := mset st.ph paKey (mkCurrencyInfo paKey b.format) }
  else if st.cap = [] then
    { st with cap := sadd st.cap b.format,
              ph := mset st.ph capKey (mkCurrencyInfo capKey b.format) }
  else st

def currencyPass (text : Str) : CurState :=
  (currencyBlanksOf text).foldl currencyStep ⟨[], [], []⟩

/-- A party marker found by the `signatureBlockRegex` scan. The regex's final
`^INVESTOR\s*$` alternative is shadowed by the plain `INVESTOR` alternative
earlier in the alternation, so it never produces a match of its own. -/
structure SigMatch where
  index : Nat
  type : Party
  text : Str
deriving DecidableEq

def markerAlts : List Str :=
  ["[COMPANY]".data, "COMPANY".data, "COMPANY:".data,
   "INVESTOR".data, "INVESTOR:".data, "[INVESTOR]".data]

def firstAltCI (alts : List Str) (s : Str) : Option Nat :=
  match alts with
  | [] => none
  | a :: rest => if ciPrefix a s then some a.length else firstAltCI rest s

def markerMatchAt (_ : Option Char) (s : Str) : Option (Nat × Str) :=
  match firstAltCI markerAlts s with
  | some len => some (len, s.take len)
  | none => none

/-- Stable ascending sort by `index` (the `sort((a, b) => a.index - b.index)`
call; V8's sort is stable). -/
def insAsc (x : SigMatch) : List SigMatch → List SigMatch
  | [] => [x]
  | y :: t => if y.index < x.index then y :: insAsc x t else x :: y :: t

def sortAsc : List SigMatch → List SigMatch
  | [] => []
  | x :: t => insAsc x (sortAsc t)

def signatureMatchesOf (text : Str) : List SigMatch :=
  sortAsc ((gScanP markerMatchAt text).map (fun m =>
    { index := m.1
      type := if includesStr (lowerStr m.2.2) "company".data then .company else .investor
      text := m.2.2 }))

/-- Matcher for a label pattern such as `/\bAddress:\s*$/gim`. -/
def labelMatchAt (lbl : Str) (prev : Option Char) (s : Str) : Option (Nat × Unit) :=
  let boundary := match prev with | none => true | some p => ¬ isWordC p
  if boundary && ciPrefix lbl s then
    match wsStarDollar (s.drop lbl.length) with
    | some k => some (lbl.length + k, ())
    | none => none
  else none

def labelFieldsList : List (Str × Str) :=
  [("Address:".data, "Address".data), ("Email:".data, "Email".data),
   ("Name:".data, "Name".data), ("Title:".data, "Title".data)]

/-- Leftmost-minimum of `reduce((closest, current) => currentDist < closestDist
? current : closest)`. -/
def closestTo (labelIndex : Nat) (h : SigMatch) (t : List SigMatch) : SigMatch :=
  t.foldl (fun closest current =>
    if ((current.index : Int) - (labelIndex : Int)).natAbs
        < ((closest.index : Int) - (labelIndex : Int)).natAbs then current else closest) h

/-- Context resolution for one label occurrence (FileUpload lines 244-299).
All position arithmetic is over `Int`, as in JS. -/
def resolveLabelCtx (sigs : List SigMatch) (lastC lastI : Option SigMatch)
    (labelIndex : Nat) : Option Party :=
  let nearby := sigs.filter
    (fun sig => decide (((sig.index : Int) - (labelIndex : Int)).natAbs < 3000))
  let ctx1 : Option Party :=
    if 0 < nearby.length then
      match nearby.filter (fun sig => decide (sig.index < labelIndex)) with
      | b :: bs => some (closestTo labelIndex b bs).type
      | [] =>
        match nearby with
        | n :: ns =>
          let closest := closestTo labelIndex n ns
          if labelIndex < closest.index + 500 then some closest.type else none
        | [] => none
    else none
  match ctx1 with
  | some p => some p
  | none =>
    match lastC, lastI with
    | some lc, some li =>
      if (labelIndex : Int) > (li.index : Int) then some .investor
      else if (labelIndex : Int) > (lc.index : Int) ∧ (labelIndex : Int) < (li.index : Int) then
        some .company
      else if (labelIndex : Int) > (lc.index : Int) - 500
          ∧ (labelIndex : Int) < (lc.index : Int) + 3000 then some .company
      else none
    | none, some li =>
      if (labelIndex : Int) > (li.index : Int) - 500
          ∧ (labelIndex : Int) < (li.index : Int) + 3000 then some .investor
      else none
    | some lc, none =>
      if (labelIndex : Int) > (lc.index : Int) - 500
          ∧ (labelIndex : Int) < (lc.index : Int) + 3000 then some .company
      else none
    | none, none => none

/-- The eight fixed `(party, label)` keys (FileUpload lines 306-334). -/
def labelKeyFor (p : Party) (label : Str) : Str :=
  match p with
  | .company =>
    if label = "Address".data then "Company Address".data
    else if label = "Email".data then "Company Email".data
    else if label = "Name".data then "Company Name Field".data
    else if label = "Title".data then "Company Title".data
    else label
  | .investor =>
    if label = "Address".data then "Investor Address".data
    else if label = "Email".data then "Investor Email".data
    else if label = "Name".data then "Investor Name".data
    else if label = "Title".data then "Investor Title".data
    else label

/-- Processing of one label occurrence (FileUpload lines 243-361): resolve a
party or drop the occurrence; `Map.set` when the existing entry's position
differs. -/
def labelOccStep (sigs : List SigMatch) (lastC lastI : Option SigMatch) (label : Str)
    (ph : PMap) (occ : Nat × Str) : PMap :=
  match resolveLabelCtx sigs lastC lastI occ.1 with
  | none => ph
  | some p =>
    let trimmed := trimStr occ.2
    let uniqueKey := labelKeyFor p label
    match mget ph uniqueKey with
    | some existing =>
      if existing.position = some occ.1 then ph
      else mset ph uniqueKey ⟨uniqueKey, trimmed, [], .square, some p, some occ.1⟩
    | none => mset ph uniqueKey ⟨uniqueKey, trimmed, [], .square, some p, some occ.1⟩

/-- The third (label-field) pass (FileUpload lines 194-362). -/
def labelPass (text : Str) (ph0 : PMap) : PMap :=
  let sigs := signatureMatchesOf text
  let lastC := (sigs.filter (fun s => s.type = .company)).getLast?
  let lastI := (sigs.filter (fun s => s.type = .investor)).getLast?
  labelFieldsList.foldl (fun ph lf =>
    let occs := (gScanP (labelMatchAt lf.1) text).map
      (fun m => (m.1, substrFT text m.1 (m.1 + m.2.1)))
    occs.foldl (labelOccStep sigs lastC lastI lf.2) ph) ph0

/-- `extractPlaceholders` (FileUpload lines 15-365): currency pass, then the
four literal patterns, then the label pass, all feeding one `Map`. -/
def extractPlaceholders (text : Str) : PMap :=
  labelPass text (literalPass text (currencyPass text).ph)

/-! ### TextRenderer (`generateCompletedDocument`, DocumentProcessor lines
587-779, the first revision of the file) -/

/-- `key.replace(/_\d+$/, '')`. -/
def stripKeySuffix (k : Str) : Str :=
  let r := k.reverse
  let ds := r.takeWhile isDigitC
  match r.drop ds.length with
  | '_' :: rest => if ds = [] then k else rest.reverse
  | _ => k

/-- `value.replace(/^\$/, '')`. -/
def stripLeadingDollar (v : Str) : Str :=
  match v with
  | '$' :: t => t
  | _ => v

/-- `groupKey.split(':')[0]`. -/
def beforeColon (s : Str) : Str := s.takeWhile (fun c => ¬ c = ':')

/-- The group key of DocumentProcessor lines 596-599:
`` `${format}:${context}:${position || 0}` `` for label-form entries with a
context, the bare format otherwise. -/
def groupKeyOf (d : PlaceholderData) : Str :=
  let f := d.info.originalFormat
  match d.info.context with
  | some p =>
    if endsWithStr f ":".data && ! includesStr f "[".data then
      f ++ ':' :: partyStr p ++ ':' :: natToStr (d.info.position.getD 0)
    else f
  | none => f

/-- JS `Map<string, Array>` with `push`: append to an existing group or
append a new singleton group. -/
def mpush {α : Type} (m : List (Str × List α)) (k : Str) (v : α) : List (Str × List α) :=
  if (mget m k).isSome then m.map (fun p => if p.1 = k then (p.1, p.2 ++ [v]) else p)
  else m ++ [(k, [v])]

def formatGroups (filled : List (Str × PlaceholderData)) :
    List (Str × List (Str × PlaceholderData)) :=
  filled.foldl (fun gs kd => mpush gs (groupKeyOf kd.2) kd) []

/-- Context detection for one label instance during rendering
(DocumentProcessor lines 636-656); the source also computes an `afterText`
there that it never uses. -/
def genLabelCtxAt (completed : Str) (labelIndex : Nat) : Option Party :=
  let beforeText := lowerStr (substrFT completed (labelIndex - 2000) labelIndex)
  let cM := lastIndexOfStr beforeText "company".data
  let iM := lastIndexOfStr beforeText "investor".data
  if cM > iM ∧ cM ≥ 0 then some .company
  else if iM ≥ 0 ∧ iM > cM then some .investor
  else if cM ≥ 0 then some .company
  else if iM ≥ 0 then some .investor
  else none

/-- Scan for the non-overlapping occurrences of a literal string (the
`new RegExp(escaped, 'g')` loops of the source). -/
def plainMatchAt (pat : Str) (_ : Option Char) (s : Str) : Option (Nat × Unit) :=
  if pat ≠ [] ∧ pat.isPrefixOf s then some (pat.length, ()) else none

def plainScan (pat s : Str) : List Nat := (gScanP (plainMatchAt pat) s).map (fun m => m.1)

/-- `allLabels.find((label, idx) => ...)` of DocumentProcessor lines 660-668:
first instance with the right context that is either the first of that
context or within 500 of the recorded position. -/
def findMatchingLabel (infoCtx : Party) (infoPos : Nat) :
    List (Nat × Option Party) → List (Nat × Option Party) → Option Nat
  | _, [] => none
  | seen, l :: rest =>
    if l.2 = some infoCtx ∧
        ((∀ pr ∈ seen, ¬ pr.2 = some infoCtx ∨ pr.1 > l.1)
          ∨ ((l.1 : Int) - (infoPos : Int)).natAbs < 500) then some l.1
    else findMatchingLabel infoCtx infoPos (seen ++ [l]) rest

/-- The context-marker alternations of DocumentProcessor lines 680-682
(`COMPANY:` / `INVESTOR:` are shadowed by the bare words before them). -/
def genMarkerAlts : Party → List Str
  | .company => ["[COMPANY]".data, "COMPANY".data, "COMPANY:".data]
  | .investor => ["INVESTOR".data, "INVESTOR:".data]

def altScan (alts : List Str) (s : Str) : List (Nat × Nat) :=
  (gScanP (fun _ s => match firstAltCI alts s with
    | some len => some (len, ())
    | none => none) s).map (fun m => (m.1, m.2.1))

/-- `/^[_\s]*$/` test on the trimmed 50 characters after a label
(DocumentProcessor lines 712-713). -/
def blankAfter (completed : Str) (i len : Nat) : Bool :=
  (trimStr (substrFT completed (i + len) (i + len + 50))).all (fun c => c = '_' || isWsC c)

/-- The fallback search of DocumentProcessor lines 680-722: the first label
occurrence shortly after a marker of the right party whose following text is
still blank. -/
def genFallbackFind (completed orig : Str) (p : Party) (ctxMs : List (Nat × Nat)) :
    Option Nat :=
  (plainScan orig completed).find? fun labelIndex =>
    decide ((∃ ctx ∈ ctxMs, labelIndex > ctx.1 ∧ labelIndex < ctx.1 + ctx.2 + 1000 ∧
        includesStr (lowerStr (substrFT completed ctx.1 (ctx.1 + ctx.2))) (partyStr p) = true)
      ∧ blankAfter completed labelIndex orig.length = true)

/-- Label replacement when context and position are recorded
(DocumentProcessor lines 626-733). -/
def genLabelReplaceWithPos (completed orig fv : Str) (p : Party) (pos : Nat) : Str :=
  let allLabels := (plainScan orig completed).map (fun i => (i, genLabelCtxAt completed i))
  match findMatchingLabel p pos [] allLabels with
  | some i => spliceReplace completed i orig.length (orig ++ ' ' :: fv)
  | none =>
    match genFallbackFind completed orig p (altScan (genMarkerAlts p) completed) with
    | some i => spliceReplace completed i orig.length (orig ++ ' ' :: fv)
    | none =>
      let fi := indexOfStr completed orig
      if fi ≥ 0 then spliceReplace completed fi.toNat orig.length (orig ++ ' ' :: fv)
      else completed

/-- Processing of one filled entry (DocumentProcessor lines 609-775). -/
def genEntryStep (gk : Str) (completed : Str) (kd : Str × PlaceholderData) : Str :=
  let info := kd.2.info
  let value := kd.2.value
  let orig :=
    if includesStr gk ":".data && ! includesStr gk "[".data && info.context.isSome then
      beforeColon gk ++ [':']
    else info.originalFormat
  let fv :=
    if ! info.pfx.isEmpty && ! startsWithStr value info.pfx then
      info.pfx ++ stripLeadingDollar value
    else value
  let completed :=
    if endsWithStr orig ":".data && ! includesStr orig "[".data then
      match info.context, info.position with
      | some p, some pos => genLabelReplaceWithPos completed orig fv p pos
      | _, _ =>
        let fi := indexOfStr completed orig
        if fi ≥ 0 then spliceReplace completed fi.toNat orig.length (orig ++ ' ' :: fv)
        else completed
    else replaceFirst orig fv completed
  if info.type = .currencyBlank then completed
  else
    let dk := stripKeySuffix kd.1
    let completed :=
      if dk = "Company Name".data then replaceAllCI "[COMPANY]".data fv completed
      else completed
    ['[' :: dk ++ [']'], '\x7b' :: dk ++ ['\x7d'],
     '\x7b' :: '\x7b' :: dk ++ ['\x7d', '\x7d'], '<' :: '<' :: dk ++ ['>', '>']].foldl
      (fun c pat => replaceAllCI pat fv c) completed

/-- `generateCompletedDocument` (DocumentProcessor lines 587-779): group the
filled entries, then substitute group by group; the result is handed to
`onDocumentCompleted` unchanged. -/
def generateCompletedDocument (documentContent : Str)
    (filled : List (Str × PlaceholderData)) : Str :=
  (formatGroups filled).foldl
    (fun completed g => g.2.foldl (genEntryStep g.1) completed) documentContent

/-! ### MarkupSafeReplacer processing order (`handleDownload`,
DocumentViewer lines 50-71): partition into label fields and other fields,
sort the label fields by recorded position descending (V8's stable sort with
comparator `b.position - a.position`), and process label fields first. -/

structure DlField where
  key : Str
  data : PlaceholderData
deriving DecidableEq

def isDlLabelField (d : PlaceholderData) : Bool :=
  endsWithStr d.info.originalFormat ":".data
    && ! includesStr d.info.originalFormat "[".data

/-- One `filledData.forEach` iteration of DocumentViewer lines 57-65: push
onto `labelFields` or `otherFields`. -/
def dlStep (acc : List DlField × List DlField) (kd : Str × PlaceholderData) :
    List DlField × List DlField :=
  if isDlLabelField kd.2 && kd.2.info.position.isSome then
    (acc.1 ++ [⟨kd.1, kd.2⟩], acc.2)
  else (acc.1, acc.2 ++ [⟨kd.1, kd.2⟩])

def dlPartition (filledData : List (Str × PlaceholderData)) :
    List DlField × List DlField :=
  filledData.foldl dlStep ([], [])

def dlPos (f : DlField) : Nat := f.data.info.position.getD 0

def sortDescPos (l : List DlField) : List DlField :=
  l.insertionSort (fun a b => dlPos b ≤ dlPos a)

/-- The order in which `handleDownload` processes entries: the sorted label
fields (lines 68-71), then the other fields (line 604). -/
def dlProcessOrder (filledData : List (Str × PlaceholderData)) : List DlField :=
  sortDescPos (dlPartition filledData).1 ++ (dlPartition filledData).2

/-! ### Lemmas about occurrences and the replacement primitives -/

theorem pfxBoolIff {l₁ l₂ : Str} : l₁.isPrefixOf l₂ = true ↔ l₁ <+: l₂ := by
  exact List.isPrefixOf_iff_prefix

theorem nilPfx (l : Str) : [] <+: l := ⟨l, rfl⟩

theorem pfxInf {l t : Str} (h : l <+: t) : l <:+: t := by
  obtain ⟨y, hy⟩ := h
  exact ⟨[], y, by simpa using hy⟩

theorem sfxInf {l t : Str} (h : l <:+ t) : l <:+: t := by
  obtain ⟨x, hx⟩ := h
  exact ⟨x, [], by simpa using hx⟩

/-- An infix of the tail is an infix. -/
theorem infOfTail {tok t : Str} (c : Char) (h : tok <:+: t) : tok <:+: c :: t := by
  obtain ⟨x, y, hxy⟩ := h
  exact ⟨c :: x, y, by simp [hxy]⟩

/-- An infix of `c :: t` is a prefix there or an infix of `t`. -/
theorem infConsSplit {tok t : Str} {c : Char} (h : tok <:+: c :: t) :
    tok <+: c :: t ∨ tok <:+: t := by
  obtain ⟨x, y, hxy⟩ := h
  cases x with
  | nil => exact Or.inl ⟨y, by simpa using hxy⟩
  | cons a x' =>
    have h2 : a :: (x' ++ tok ++ y) = c :: t := by simpa using hxy
    exact Or.inr ⟨x', y, (List.cons.injEq _ _ _ _).mp h2 |>.2⟩

/-- An infix of `a ++ b` that is not an infix of `b` contains a character
of `a`. -/
theorem infAppendSplit {tok a b : Str} (hne : tok ≠ []) (h : tok <:+: a ++ b) :
    tok <:+: b ∨ ∃ c, c ∈ a ∧ c ∈ tok := by
  obtain ⟨x, y, hxy⟩ := h
  by_cases hx : a.length ≤ x.length
  · left
    have hd := congrArg (List.drop a.length) hxy
    rw [List.drop_left] at hd
    rw [List.append_assoc, List.drop_append_of_le_length hx] at hd
    exact ⟨x.drop a.length, y, by rw [← hd, List.append_assoc]⟩
  · right
    have hxa : x.length ≤ a.length := Nat.le_of_lt (Nat.lt_of_not_le hx)
    have hd := congrArg (List.drop x.length) hxy
    rw [List.append_assoc, List.drop_left, List.drop_append_of_le_length hxa] at hd
    have hdropne : a.drop x.length ≠ [] := by
      intro hc
      have := congrArg List.length hc
      simp at this
      omega
    obtain ⟨d, ds, hds⟩ := List.exists_cons_of_ne_nil hdropne
    obtain ⟨t0, tt, ht⟩ := List.exists_cons_of_ne_nil hne
    rw [ht, hds] at hd
    have h0 : t0 = d := by
      have : t0 :: (tt ++ y) = d :: (ds ++ b) := by simpa using hd
      exact ((List.cons.injEq _ _ _ _).mp this).1
    refine ⟨t0, ?_, by simp [ht]⟩
    have : d ∈ a.drop x.length := by rw [hds]; exact List.mem_cons_self _ _
    exact h0 ▸ List.drop_subset _ _ this

theorem notInfOfCountZero {tok : Str} : ∀ {t : Str}, countOcc tok t = 0 → ¬ tok <:+: t := by
  intro t
  induction t with
  | nil =>
    intro h hinf
    obtain ⟨x, y, hxy⟩ := hinf
    have h1 := List.append_eq_nil.mp hxy
    have h2 := List.append_eq_nil.mp h1.1
    rw [h2.2] at h
    simp [countOcc] at h
  | cons c t ih =>
    intro h hinf
    rw [countOcc] at h
    rcases infConsSplit hinf with hp | hi
    · rw [if_pos (pfxBoolIff.mpr hp)] at h
      omega
    · exact ih (by omega) hi

/-- `GetSubstitution` is the identity on a replacement string containing no
`$` character. -/
theorem getSubstNoDollar (m pre post : Str) :
    ∀ v : Str, dollarC ∉ v → getSubst m pre post v = v := by
  intro v
  induction v with
  | nil => intro _; rfl
  | cons c rest ih =>
    intro h
    have hc : ¬ c = dollarC := by
      intro hc
      exact h (by rw [← hc]; exact List.mem_cons_self _ _)
    cases rest with
    | nil => simp [getSubst, hc]
    | cons d rest2 =>
      rw [getSubst, if_neg hc, ih (fun hm => h (List.mem_cons_of_mem _ hm))]

theorem replaceFirstAuxEqLit {pat rep : Str} (hpat : ¬ pat = []) (hds : dollarC ∉ rep) :
    ∀ (s before : Str), replaceFirstAux pat rep before s = replaceFirstLit pat rep s := by
  intro s
  induction s with
  | nil => intro before; rw [replaceFirstAux, replaceFirstLit, if_neg hpat]
  | cons c s' ih =>
    intro before
    rw [replaceFirstAux, replaceFirstLit, if_neg hpat]
    by_cases hm : pat.isPrefixOf (c :: s') = true
    · rw [if_pos hm, if_pos hm, getSubstNoDollar _ _ _ rep hds]
    · rw [if_neg hm, if_neg hm, ih]

/-- With a `$`-free replacement the program's `replace` inserts the
replacement literally. -/
theorem replaceFirstEqLit {pat rep : Str} (hds : dollarC ∉ rep) (s : Str) :
    replaceFirst pat rep s = replaceFirstLit pat rep s := by
  by_cases hp : pat = []
  · unfold replaceFirst
    rw [if_pos hp, getSubstNoDollar _ _ _ rep hds]
    cases s with
    | nil => rw [replaceFirstLit, if_pos hp, List.append_nil]
    | cons c s' => rw [replaceFirstLit, if_pos hp]
  · unfold replaceFirst
    rw [if_neg hp, replaceFirstAuxEqLit hp hds]

theorem replaceAllAuxEqLit {pat rep : Str} (hds : dollarC ∉ rep) :
    ∀ (fuel : Nat) (s before : Str),
      replaceAllCIAux pat rep fuel before s = replaceAllLitAux pat rep fuel s := by
  intro fuel
  induction fuel with
  | zero => intro s before; rfl
  | succ n ih =>
    intro s before
    cases s with
    | nil => rfl
    | cons c s' =>
      rw [replaceAllCIAux, replaceAllLitAux]
      by_cases hm : ciPrefix pat (c :: s') = true
      · rw [if_pos hm, if_pos hm, getSubstNoDollar _ _ _ rep hds, ih]
      · rw [if_neg hm, if_neg hm, ih]

/-- With a `$`-free replacement the program's global `gi` replace inserts
the replacement literally. -/
theorem replaceAllCIEqLit {pat rep : Str} (hds : dollarC ∉ rep) (s : Str) :
    replaceAllCI pat rep s = replaceAllLit pat rep s := by
  unfold replaceAllCI replaceAllLit
  by_cases hp : pat = []
  · rw [if_pos hp, if_pos hp]
  · rw [if_neg hp, if_neg hp, replaceAllAuxEqLit hds]

/-- A prefix of `replaceAllLitAux` output sharing no character with the
(nonempty) replacement is a prefix of the input. -/
theorem pfxThroughReplAux {pat rep : Str} (hrep : rep ≠ []) :
    ∀ (fuel : Nat) (s p : Str), (∀ c ∈ p, c ∉ rep) →
      p <+: replaceAllLitAux pat rep fuel s → p <+: s := by
  intro fuel
  induction fuel with
  | zero => intro s p _ h; simpa [replaceAllLitAux] using h
  | succ n ih =>
    intro s p hd h
    cases s with
    | nil => simpa [replaceAllLitAux] using h
    | cons c s' =>
      rw [replaceAllLitAux] at h
      by_cases hm : ciPrefix pat (c :: s') = true
      · rw [if_pos hm] at h
        cases p with
        | nil => exact nilPfx _
        | cons p0 pt =>
          exfalso
          obtain ⟨r0, rt, hr⟩ := List.exists_cons_of_ne_nil hrep
          rw [hr] at h
          obtain ⟨u, hu⟩ := h
          have h2 : p0 :: (pt ++ u) = r0 :: (rt ++ replaceAllLitAux pat (r0 :: rt) n ((c :: s').drop pat.length)) := by
            simpa using hu
          have h0 : p0 = r0 := ((List.cons.injEq _ _ _ _).mp h2).1
          exact hd p0 (List.mem_cons_self _ _) (by rw [hr, h0]; exact List.mem_cons_self _ _)
      · rw [if_neg hm] at h
        cases p with
        | nil => exact nilPfx _
        | cons p0 pt =>
          obtain ⟨u, hu⟩ := h
          have h2 : p0 :: (pt ++ u) = c :: replaceAllLitAux pat rep n s' := by simpa using hu
          have h0 := (List.cons.injEq _ _ _ _).mp h2
          have hpt : pt <+: replaceAllLitAux pat rep n s' := ⟨u, h0.2⟩
          have := ih s' pt (fun x hx => hd x (List.mem_cons_of_mem _ hx)) hpt
          obtain ⟨u', hu'⟩ := this
          exact ⟨u', by rw [h0.1]; simp [hu']⟩

/-- Replacing occurrences of any pattern by a value that shares no character
with `tok` cannot create an occurrence of `tok`. -/
theorem infThroughReplAux {pat rep tok : Str} (htok : tok ≠ []) (hrep : rep ≠ [])
    (hd : ∀ c ∈ rep, c ∉ tok) :
    ∀ (fuel : Nat) (s : Str), tok <:+: replaceAllLitAux pat rep fuel s → tok <:+: s := by
  intro fuel
  induction fuel with
  | zero => intro s h; simpa [replaceAllLitAux] using h
  | succ n ih =>
    intro s h
    cases s with
    | nil => simpa [replaceAllLitAux] using h
    | cons c s' =>
      rw [replaceAllLitAux] at h
      by_cases hm : ciPrefix pat (c :: s') = true
      · rw [if_pos hm] at h
        rcases infAppendSplit htok h with h1 | ⟨ch, hcr, hct⟩
        · exact (ih _ h1).trans (sfxInf (List.drop_suffix pat.length (c :: s')))
        · exact absurd hct (hd ch hcr)
      · rw [if_neg hm] at h
        rcases infConsSplit h with hp | hi
        · obtain ⟨t0, tt, ht⟩ := List.exists_cons_of_ne_nil htok
          rw [ht] at hp
          obtain ⟨u, hu⟩ := hp
          have h2 : t0 :: (tt ++ u) = c :: replaceAllLitAux pat rep n s' := by simpa using hu
          have h0 := (List.cons.injEq _ _ _ _).mp h2
          have htt : tt <+: replaceAllLitAux pat rep n s' := ⟨u, h0.2⟩
          have hdisj : ∀ x ∈ tt, x ∉ rep := by
            intro x hx hxr
            exact hd x hxr (by rw [ht]; exact List.mem_cons_of_mem _ hx)
          have := pfxThroughReplAux hrep n s' tt hdisj htt
          obtain ⟨u', hu'⟩ := this
          exact pfxInf (by rw [ht, h0.1]; exact ⟨u', by simp [hu']⟩)
        · exact infOfTail c (ih s' hi)

/-- The program's global `gi` replace by a `$`-free nonempty value sharing
no character with `tok` cannot create an occurrence of `tok`. -/
theorem notinfReplAll {pat rep tok s : Str} (htok : tok ≠ []) (hrep : rep ≠ [])
    (hds : dollarC ∉ rep) (hd : ∀ c ∈ rep, c ∉ tok)
    (h : tok <:+: replaceAllCI pat rep s) : tok <:+: s := by
  rw [replaceAllCIEqLit hds] at h
  unfold replaceAllLit at h
  by_cases hp : pat = []
  · rwa [if_pos hp] at h
  · rw [if_neg hp] at h
    exact infThroughReplAux htok hrep hd s.length s h

/-- A prefix of `replaceFirstLit` output sharing no character with the
(nonempty) replacement is a prefix of the input. -/
theorem pfxThroughReplaceFirst {pat rep : Str} (hrep : rep ≠ []) :
    ∀ (s p : Str), (∀ c ∈ p, c ∉ rep) → p <+: replaceFirstLit pat rep s → p <+: s := by
  intro s
  induction s with
  | nil =>
    intro p hd h
    rw [replaceFirstLit] at h
    by_cases hp : pat = []
    · rw [if_pos hp] at h
      cases p with
      | nil => exact nilPfx _
      | cons p0 pt =>
        exfalso
        obtain ⟨r0, rt, hr⟩ := List.exists_cons_of_ne_nil hrep
        rw [hr] at h
        obtain ⟨u, hu⟩ := h
        have h2 : p0 :: (pt ++ u) = r0 :: rt := by simpa using hu
        have h0 : p0 = r0 := ((List.cons.injEq _ _ _ _).mp h2).1
        exact hd p0 (List.mem_cons_self _ _) (by rw [hr, h0]; exact List.mem_cons_self _ _)
    · rw [if_neg hp] at h
      exact (List.prefix_nil.mp h) ▸ nilPfx ([] : Str)
  | cons c s' ih =>
    intro p hd h
    rw [replaceFirstLit] at h
    by_cases hp : pat = []
    · rw [if_pos hp] at h
      cases p with
      | nil => exact nilPfx _
      | cons p0 pt =>
        exfalso
        obtain ⟨r0, rt, hr⟩ := List.exists_cons_of_ne_nil hrep
        rw [hr] at h
        obtain ⟨u, hu⟩ := h
        have h2 : p0 :: (pt ++ u) = r0 :: (rt ++ c :: s') := by simpa using hu
        have h0 : p0 = r0 := ((List.cons.injEq _ _ _ _).mp h2).1
        exact hd p0 (List.mem_cons_self _ _) (by rw [hr, h0]; exact List.mem_cons_self _ _)
    · rw [if_neg hp] at h
      by_cases hm : pat.isPrefixOf (c :: s') = true
      · rw [if_pos hm] at h
        cases p with
        | nil => exact nilPfx _
        | cons p0 pt =>
          exfalso
          obtain ⟨r0, rt, hr⟩ := List.exists_cons_of_ne_nil hrep
          rw [hr] at h
          obtain ⟨u, hu⟩ := h
          have h2 : p0 :: (pt ++ u) = r0 :: (rt ++ (c :: s').drop pat.length) := by simpa using hu
          have h0 : p0 = r0 := ((List.cons.injEq _ _ _ _).mp h2).1
          exact hd p0 (List.mem_cons_self _ _) (by rw [hr, h0]; exact List.mem_cons_self _ _)
      · rw [if_neg hm] at h
        cases p with
        | nil => exact nilPfx _
        | cons p0 pt =>
          obtain ⟨u, hu⟩ := h
          have h2 : p0 :: (pt ++ u) = c :: replaceFirstLit pat rep s' := by simpa using hu
          have h0 := (List.cons.injEq _ _ _ _).mp h2
          have := ih pt (fun x hx => hd x (List.mem_cons_of_mem _ hx)) ⟨u, h0.2⟩
          obtain ⟨u', hu'⟩ := this
          exact ⟨u', by rw [h0.1]; simp [hu']⟩

/-- Replacing the unique occurrence of `tok` by a nonempty value sharing no
character with it leaves a `tok`-free string. -/
theorem replaceFirstNoResidual {tok rep : Str} (htok : tok ≠ []) (hrep : rep ≠ [])
    (hd : ∀ c ∈ rep, c ∉ tok) :
    ∀ s : Str, countOcc tok s = 1 → ¬ tok <:+: replaceFirstLit tok rep s := by
  intro s
  induction s with
  | nil =>
    intro h
    rw [countOcc, if_neg htok] at h
    omega
  | cons c s' ih =>
    intro h hinf
    rw [countOcc] at h
    rw [replaceFirstLit, if_neg htok] at hinf
    by_cases hm : tok.isPrefixOf (c :: s') = true
    · rw [if_pos hm] at hinf
      rw [if_pos hm] at h
      have hz : countOcc tok s' = 0 := by omega
      rcases infAppendSplit htok hinf with h1 | ⟨ch, hcr, hct⟩
      · obtain ⟨t0, tt, ht⟩ := List.exists_cons_of_ne_nil htok
        have hsfx : (c :: s').drop tok.length <:+ s' := by
          rw [ht]
          simpa using List.drop_suffix tt.length s'
        exact notInfOfCountZero hz (h1.trans (sfxInf hsfx))
      · exact hd ch hcr hct
    · rw [if_neg hm] at hinf
      rw [if_neg hm] at h
      rcases infConsSplit hinf with hp | hi
      · obtain ⟨t0, tt, ht⟩ := List.exists_cons_of_ne_nil htok
        rw [ht] at hp
        obtain ⟨u, hu⟩ := hp
        have h2 : t0 :: (tt ++ u) = c :: replaceFirstLit (t0 :: tt) rep s' := by simpa using hu
        have h0 := (List.cons.injEq _ _ _ _).mp h2
        have hdisj : ∀ x ∈ tt, x ∉ rep := by
          intro x hx hxr
          exact hd x hxr (by rw [ht]; exact List.mem_cons_of_mem _ hx)
        have htt := pfxThroughReplaceFirst hrep s' tt hdisj ⟨u, h0.2⟩
        obtain ⟨u', hu'⟩ := htt
        have : tok.isPrefixOf (c :: s') = true := by
          apply pfxBoolIff.mpr
          rw [ht, h0.1]
          exact ⟨u', by simp [hu']⟩
        exact hm this
      · exact ih (by simp at h; omega) hi

/-- Replacing the first occurrence of any pattern by a nonempty value
sharing no character with `tok` cannot create an occurrence of `tok`. -/
theorem infThroughReplaceFirst {pat rep tok : Str} (htok : tok ≠ []) (hrep : rep ≠ [])
    (hd : ∀ c ∈ rep, c ∉ tok) :
    ∀ s : Str, tok <:+: replaceFirstLit pat rep s → tok <:+: s := by
  intro s
  induction s with
  | nil =>
    intro h
    rw [replaceFirstLit] at h
    by_cases hp : pat = []
    · rw [if_pos hp] at h
      exfalso
      obtain ⟨t0, tt, ht⟩ := List.exists_cons_of_ne_nil htok
      have ht0 : t0 ∈ tok := by rw [ht]; exact List.mem_cons_self _ _
      exact hd t0 (h.subset ht0) ht0
    · rwa [if_neg hp] at h
  | cons c s' ih =>
    intro h
    rw [replaceFirstLit] at h
    by_cases hp : pat = []
    · rw [if_pos hp] at h
      rcases infAppendSplit htok h with h1 | ⟨ch, hcr, hct⟩
      · exact h1
      · exact absurd hct (hd ch hcr)
    · rw [if_neg hp] at h
      by_cases hm : pat.isPrefixOf (c :: s') = true
      · rw [if_pos hm] at h
        rcases infAppendSplit htok h with h1 | ⟨ch, hcr, hct⟩
        · exact h1.trans (sfxInf (List.drop_suffix pat.length (c :: s')))
        · exact absurd hct (hd ch hcr)
      · rw [if_neg hm] at h
        rcases infConsSplit h with hp2 | hi
        · obtain ⟨t0, tt, ht⟩ := List.exists_cons_of_ne_nil htok
          rw [ht] at hp2
          obtain ⟨u, hu⟩ := hp2
          have h2 : t0 :: (tt ++ u) = c :: replaceFirstLit pat rep s' := by simpa using hu
          have h0 := (List.cons.injEq _ _ _ _).mp h2
          have hdisj : ∀ x ∈ tt, x ∉ rep := by
            intro x hx hxr
            exact hd x hxr (by rw [ht]; exact List.mem_cons_of_mem _ hx)
          have htt := pfxThroughReplaceFirst hrep s' tt hdisj ⟨u, h0.2⟩
          obtain ⟨u', hu'⟩ := htt
          exact pfxInf (by rw [ht, h0.1]; exact ⟨u', by simp [hu']⟩)
        · exact infOfTail c (ih hi)

/-- The chain of normalized-pattern global replacements with a `$`-free
value preserves `tok`-freeness. -/
theorem notinfFoldRepl {tok v : Str} (htok : tok ≠ []) (hv : v ≠ [])
    (hds : dollarC ∉ v) (hd : ∀ c ∈ v, c ∉ tok) :
    ∀ (pats : List Str) (x : Str), ¬ tok <:+: x →
      ¬ tok <:+: pats.foldl (fun c pat => replaceAllCI pat v c) x := by
  intro pats
  induction pats with
  | nil => exact fun x h => h
  | cons p ps ih =>
    intro x h
    exact ih _ (fun hin => h (notinfReplAll htok hv hds hd hin))

/-! ### Claim theorems -/

/-- A representative currency-kind placeholder descriptor. -/
def currencyPh : PlaceholderInfo :=
  ⟨paKey, "$[______]".data, "$".data, .currencyBlank, none, none⟩

/-- A representative date placeholder descriptor (the source keys date
handling off the key containing "date"; there is no date `type`). -/
def datePh : PlaceholderInfo :=
  ⟨"Date of Safe".data, "[Date of Safe]".data, [], .square, none, none⟩

/-- C1 (counterexample): the claim states `extractValue("5 million",
currency) = "$5,000,000"`, but the number regex stops at the space, so only
`"5"` is extracted and the result is `"$5"`. -/
theorem extractValue_five_million_counterexample :
    extractValue "5 million".data currencyPh = "$5".data
    ∧ ¬ extractValue "5 million".data currencyPh = "$5,000,000".data := by
  constructor
  · decide
  · decide

/-- C1 (amended): for a currency-kind placeholder `extractValue` extracts the
first numeric token and scales it only when the suffix is attached directly
to the digits: `k` multiplies by 1,000 and `M`/`million` by 1,000,000, while
a space-separated word (`"5 million"`) and the word `thousand` are not
scaled; the result is reformatted with thousands separators and a `"$"`
prefix, and a recognized date input for a date placeholder passes through
unchanged. -/
theorem extractValue_currency_behavior :
    extractValue "100k".data currencyPh = "$100,000".data
    ∧ extractValue "5M".data currencyPh = "$5,000,000".data
    ∧ extractValue "5million".data currencyPh = "$5,000,000".data
    ∧ extractValue "5 million".data currencyPh = "$5".data
    ∧ extractValue "5thousand".data currencyPh = "$5".data
    ∧ extractValue "100,000".data currencyPh = "$100,000".data
    ∧ extractValue "October 31, 2025".data datePh = "October 31, 2025".data := by
  refine ⟨by decide, by decide, by decide, by decide, by decide, by decide, by decide⟩

/-- C9: rendering with an empty resolved-value map is the identity on the
document text: the grouping loop and the substitution loop both fold over
nothing, and `onDocumentCompleted` receives the text unchanged. -/
theorem render_empty_map_identity (content : Str) :
    generateCompletedDocument content [] = content := rfl

/-- C8: a label occurrence whose party context cannot be resolved (the whole
resolution chain of `extractPlaceholders` returns nothing) is dropped: the
catalog is left exactly as it was, no party is guessed and no error is
raised (the step is a total function). -/
theorem unresolved_label_dropped (sigs : List SigMatch) (lastC lastI : Option SigMatch)
    (label : Str) (ph : PMap) (occ : Nat × Str)
    (h : resolveLabelCtx sigs lastC lastI occ.1 = none) :
    labelOccStep sigs lastC lastI label ph occ = ph := by
  unfold labelOccStep
  rw [h]

/-- Witness for `unresolved_label_dropped`: in a document with no party
markers at all, an `"Address:"` occurrence resolves to no party and the
catalog stays empty. -/
theorem unresolved_label_dropped_witness :
    resolveLabelCtx [] none none 0 = none
    ∧ labelOccStep [] none none "Address".data [] (0, "Address:".data) = [] :=
  ⟨by decide,
   unresolved_label_dropped [] none none "Address".data [] (0, "Address:".data) (by decide)⟩

/-- C3 (counterexample): with the catalog of `"k [A ] m [A ] n"` (one square
entry, token `"[A ]"` whose interior is not its normalized key) and a
resolved-value map covering every catalog key, rendering leaves a residual
occurrence of the entry's `originalToken`: only the first occurrence is
replaced and the normalized global pass `[A]` does not match `[A ]`. -/
theorem render_residual_counterexample :
    keysOf (extractPlaceholders "k [A ] m [A ] n".data) = ["A".data]
    ∧ countOcc "[A ]".data
        (generateCompletedDocument "k [A ] m [A ] n".data
          ((extractPlaceholders "k [A ] m [A ] n".data).map
            (fun p => (p.1, ⟨p.2, "Q".data⟩)))) = 1 := by
  constructor
  · decide
  · decide

/-- The side conditions on a further filled entry under which its processing
step cannot re-create `tok`: no value prepend, no recorded context, a
nonempty `$`-free value sharing no character with `tok`, and a
non-label-form token. -/
abbrev TailOK (tok : Str) (d : PlaceholderData) : Prop :=
  d.info.pfx = [] ∧ d.info.context = none ∧ d.value ≠ [] ∧ dollarC ∉ d.value
  ∧ (∀ c ∈ d.value, c ∉ tok)
  ∧ (endsWithStr d.info.originalFormat ":".data
      && ! includesStr d.info.originalFormat "[".data) = false

/-- A `TailOK` entry's substitution step preserves `tok`-freeness. -/
theorem genEntryStepPreserves {tok : Str} (htok : tok ≠ []) (gk : Str)
    (kd : Str × PlaceholderData) (hok : TailOK tok kd.2) (completed : Str)
    (h : ¬ tok <:+: completed) : ¬ tok <:+: genEntryStep gk completed kd := by
  obtain ⟨hpfx, hctx, hv, hds, hd, hcolon⟩ := hok
  unfold genEntryStep
  simp only [hctx, hpfx, Option.isSome_none, Bool.and_false, Bool.false_and,
    List.isEmpty_nil, Bool.not_true, hcolon, Bool.false_eq_true, if_false]
  have hC : ¬ tok <:+: replaceFirst kd.2.info.originalFormat kd.2.value completed := by
    rw [replaceFirstEqLit hds]
    intro hx
    exact h (infThroughReplaceFirst htok hv hd _ hx)
  by_cases hty : kd.2.info.type = PType.currencyBlank
  · rw [if_pos hty]
    exact hC
  · rw [if_neg hty]
    refine notinfFoldRepl htok hv hds hd _ _ ?_
    split
    · intro hx
      exact hC (notinfReplAll htok hv hds hd hx)
    · exact hC

/-- Folding `TailOK` entry steps preserves `tok`-freeness. -/
theorem genFoldPreserves {tok : Str} (htok : tok ≠ []) (gk : Str) :
    ∀ (l : List (Str × PlaceholderData)), (∀ kd ∈ l, TailOK tok kd.2) →
      ∀ x : Str, ¬ tok <:+: x → ¬ tok <:+: l.foldl (genEntryStep gk) x := by
  intro l
  induction l with
  | nil => intro _ x h; exact h
  | cons kd t ih =>
    intro hl x h
    exact ih (fun e he => hl e (List.mem_cons_of_mem _ he)) _
      (genEntryStepPreserves htok gk kd (hl kd (List.mem_cons_self _ _)) x h)

/-- Folding whole groups of `TailOK` entries preserves `tok`-freeness. -/
theorem genGroupsPreserve {tok : Str} (htok : tok ≠ []) :
    ∀ (gs : List (Str × List (Str × PlaceholderData))),
      (∀ g ∈ gs, ∀ kd ∈ g.2, TailOK tok kd.2) →
      ∀ x : Str, ¬ tok <:+: x →
      ¬ tok <:+: gs.foldl (fun c g => g.2.foldl (genEntryStep g.1) c) x := by
  intro gs
  induction gs with
  | nil => intro _ x h; exact h
  | cons g t ih =>
    intro hgs x h
    exact ih (fun e he => hgs e (List.mem_cons_of_mem _ he)) _
      (genFoldPreserves htok g.1 g.2 (hgs g (List.mem_cons_self _ _)) x h)

/-- The first processed entry, when it is the literal entry for `tok` itself
and `tok` occurs exactly once, leaves a `tok`-free document. -/
theorem headStepKills (gk content tok v key : Str) (ty : PType)
    (htok : tok ≠ []) (hv : v ≠ []) (hds : dollarC ∉ v)
    (hd : ∀ c ∈ v, c ∉ tok)
    (hcolon : endsWithStr tok ":".data = false)
    (honce : countOcc tok content = 1) :
    ¬ tok <:+: genEntryStep gk content (key, ⟨⟨key, tok, [], ty, none, none⟩, v⟩) := by
  have hbase : ¬ tok <:+: replaceFirst tok v content := by
    rw [replaceFirstEqLit hds]
    exact replaceFirstNoResidual htok hv hd content honce
  unfold genEntryStep
  simp only [Option.isSome_none, Bool.and_false, Bool.false_and, List.isEmpty_nil,
    Bool.not_true, hcolon, Bool.false_eq_true, if_false]
  by_cases hty : ty = PType.currencyBlank
  · simp only [hty, if_pos rfl]
    exact hbase
  · rw [if_neg (fun hc => hty hc)]
    exact notinfFoldRepl htok hv hds hd _ _ (by
      split
      · intro hx
        exact hbase (notinfReplAll htok hv hds hd hx)
      · exact hbase)

/-- Every element stored in a group after an `mpush` was stored before or is
the pushed element. -/
theorem mpushMemOrig {α : Type} (k : Str) (v : α) (m : List (Str × List α)) :
    ∀ g ∈ mpush m k v, ∀ x ∈ g.2, (∃ g' ∈ m, x ∈ g'.2) ∨ x = v := by
  intro g hg x hx
  unfold mpush at hg
  by_cases hs : (mget m k).isSome = true
  · rw [if_pos hs] at hg
    obtain ⟨g', hg', hmap⟩ := List.mem_map.mp hg
    by_cases he : g'.1 = k
    · rw [if_pos he] at hmap
      rw [← hmap] at hx
      rcases List.mem_append.mp hx with h1 | h2
      · exact Or.inl ⟨g', hg', h1⟩
      · exact Or.inr (List.mem_singleton.mp h2)
    · rw [if_neg he] at hmap
      rw [← hmap] at hx
      exact Or.inl ⟨g', hg', hx⟩
  · rw [if_neg hs] at hg
    rcases List.mem_append.mp hg with h1 | h2
    · exact Or.inl ⟨g, h1, hx⟩
    · rw [List.mem_singleton.mp h2] at hx
      exact Or.inr (List.mem_singleton.mp hx)

/-- Every element stored after folding `mpush`es satisfies any property that
the initially stored elements and the pushed elements satisfy. -/
theorem foldMpushMem {α : Type} (kf : α → Str) (P : α → Prop) :
    ∀ (l : List α) (m0 : List (Str × List α)),
      (∀ x ∈ l, P x) → (∀ g ∈ m0, ∀ x ∈ g.2, P x) →
      ∀ g ∈ l.foldl (fun gs kd => mpush gs (kf kd) kd) m0, ∀ x ∈ g.2, P x := by
  intro l
  induction l with
  | nil => intro m0 _ hm0; exact hm0
  | cons kd t ih =>
    intro m0 hl hm0
    have hstep : ∀ g ∈ mpush m0 (kf kd) kd, ∀ x ∈ g.2, P x := by
      intro g hg x hx
      rcases mpushMemOrig (kf kd) kd m0 g hg x hx with ⟨g', hg', hx'⟩ | hxe
      · exact hm0 g' hg' x hx'
      · rw [hxe]; exact hl kd (List.mem_cons_self _ _)
    exact ih (mpush m0 (kf kd) kd) (fun x hx => hl x (List.mem_cons_of_mem _ hx)) hstep

/-- `mpush` keeps the head group's key and the head of its list. -/
theorem mpushHeadCons {α : Type} (k0 : Str) (e : α) (extra : List α)
    (others : List (Str × List α)) (k : Str) (v : α) :
    ∃ extra' others',
      mpush ((k0, e :: extra) :: others) k v = (k0, e :: extra') :: others' := by
  unfold mpush
  by_cases hs : (mget ((k0, e :: extra) :: others) k).isSome = true
  · rw [if_pos hs]
    by_cases he : k0 = k
    · exact ⟨extra ++ [v], others.map (fun p => if p.1 = k then (p.1, p.2 ++ [v]) else p),
        by simp [he]⟩
    · exact ⟨extra, others.map (fun p => if p.1 = k then (p.1, p.2 ++ [v]) else p),
        by simp [he]⟩
  · rw [if_neg hs]
    exact ⟨extra, others ++ [(k, [v])], by simp⟩

/-- Folding `mpush`es keeps the head group's key and the head of its list. -/
theorem foldMpushHead {α : Type} (kf : α → Str) :
    ∀ (l : List α) (k0 : Str) (e : α) (extra : List α) (others : List (Str × List α)),
      ∃ extra' others',
        l.foldl (fun gs kd => mpush gs (kf kd) kd) ((k0, e :: extra) :: others)
          = (k0, e :: extra') :: others' := by
  intro l
  induction l with
  | nil => intro k0 e extra others; exact ⟨extra, others, rfl⟩
  | cons kd t ih =>
    intro k0 e extra others
    obtain ⟨e1, o1, h1⟩ := mpushHeadCons k0 e extra others (kf kd) kd
    have h2 := ih k0 e e1 o1
    rw [← h1] at h2
    exact h2

/-- C3 (amended): rendering leaves zero occurrences of a literal entry's
`originalToken` when that token occurs exactly once in the text, the
substituted value is nonempty, contains no `$` character (the program's
`replace` expands ECMAScript `$`-substitution patterns, so a value holding
a dollar-ampersand pair reinserts the matched token) and shares no
character with the token, the entry is filled first, and every further
filled entry is a literal (non-label-form) one whose value is likewise
nonempty, `$`-free and character-disjoint from the token. With duplicate
occurrences of a non-normalized token residuals remain (see the
counterexample). -/
theorem render_single_literal_no_residual
    (content tok v key : Str) (ty : PType) (rest : List (Str × PlaceholderData))
    (htok : tok ≠ []) (hv : v ≠ []) (hds : dollarC ∉ v)
    (hd : ∀ c ∈ v, c ∉ tok)
    (hcolon : endsWithStr tok ":".data = false)
    (honce : countOcc tok content = 1)
    (hrest : ∀ kd ∈ rest, TailOK tok kd.2) :
    ¬ tok <:+: generateCompletedDocument content
        ((key, ⟨⟨key, tok, [], ty, none, none⟩, v⟩) :: rest) := by
  obtain ⟨extra, others, hshape⟩ :=
    foldMpushHead (fun kd : Str × PlaceholderData => groupKeyOf kd.2) rest
      (groupKeyOf (⟨⟨key, tok, [], ty, none, none⟩, v⟩ : PlaceholderData))
      (key, ⟨⟨key, tok, [], ty, none, none⟩, v⟩) [] []
  have hFG : formatGroups
        ((key, (⟨⟨key, tok, [], ty, none, none⟩, v⟩ : PlaceholderData)) :: rest)
      = (groupKeyOf (⟨⟨key, tok, [], ty, none, none⟩, v⟩ : PlaceholderData),
         (key, (⟨⟨key, tok, [], ty, none, none⟩, v⟩ : PlaceholderData)) :: extra) :: others :=
    hshape
  have hmem : ∀ g ∈ (groupKeyOf (⟨⟨key, tok, [], ty, none, none⟩, v⟩ : PlaceholderData),
        (key, (⟨⟨key, tok, [], ty, none, none⟩, v⟩ : PlaceholderData)) :: extra) :: others,
      ∀ x ∈ g.2, x ∈ (key, (⟨⟨key, tok, [], ty, none, none⟩, v⟩ : PlaceholderData)) :: rest := by
    have hm := foldMpushMem (fun kd : Str × PlaceholderData => groupKeyOf kd.2)
      (fun x => x ∈ (key, (⟨⟨key, tok, [], ty, none, none⟩, v⟩ : PlaceholderData)) :: rest) rest
      ((groupKeyOf (⟨⟨key, tok, [], ty, none, none⟩, v⟩ : PlaceholderData),
        (key, (⟨⟨key, tok, [], ty, none, none⟩, v⟩ : PlaceholderData)) :: []) :: [])
      (fun x hx => List.mem_cons_of_mem _ hx)
      (by
        intro g hg x hx
        rw [List.mem_singleton.mp hg] at hx
        rw [List.mem_singleton.mp hx]
        exact List.mem_cons_self _ _)
    rw [hshape] at hm
    exact hm
  have hTall : ∀ kd ∈ (key, (⟨⟨key, tok, [], ty, none, none⟩, v⟩ : PlaceholderData)) :: rest,
      TailOK tok kd.2 := by
    intro kd hkd
    rcases List.mem_cons.mp hkd with h1 | h2
    · rw [h1]
      refine ⟨rfl, rfl, hv, hds, hd, ?_⟩
      show (endsWithStr tok ":".data && ! includesStr tok "[".data) = false
      rw [hcolon, Bool.false_and]
    · exact hrest kd h2
  have hres : generateCompletedDocument content
      ((key, (⟨⟨key, tok, [], ty, none, none⟩, v⟩ : PlaceholderData)) :: rest)
      = others.foldl (fun c g => g.2.foldl (genEntryStep g.1) c)
          (extra.foldl
            (genEntryStep (groupKeyOf (⟨⟨key, tok, [], ty, none, none⟩, v⟩ : PlaceholderData)))
            (genEntryStep (groupKeyOf (⟨⟨key, tok, [], ty, none, none⟩, v⟩ : PlaceholderData))
              content (key, ⟨⟨key, tok, [], ty, none, none⟩, v⟩))) := by
    unfold generateCompletedDocument
    rw [hFG]
    rfl
  rw [hres]
  have hkill : ¬ tok <:+: genEntryStep
      (groupKeyOf (⟨⟨key, tok, [], ty, none, none⟩, v⟩ : PlaceholderData))
      content (key, ⟨⟨key, tok, [], ty, none, none⟩, v⟩) :=
    headStepKills _ content tok v key ty htok hv hds hd hcolon honce
  have hextra : ∀ kd ∈ extra, TailOK tok kd.2 := fun kd hkd =>
    hTall kd (hmem _ (List.mem_cons_self _ _) kd (List.mem_cons_of_mem _ hkd))
  have hothers : ∀ g ∈ others, ∀ kd ∈ g.2, TailOK tok kd.2 := fun g hg kd hkd =>
    hTall kd (hmem g (List.mem_cons_of_mem _ hg) kd hkd)
  exact genGroupsPreserve htok others hothers _
    (genFoldPreserves htok _ extra hextra _ hkill)

/-- Witness for `render_single_literal_no_residual` at a concrete document:
`"a [B] c <<D>> e"` with the `[B]` entry filled first with `"xy"` and a
second literal entry (`<<D>>`, value `"zz"`); the two-entry map covers both
keys of the catalog `extractPlaceholders` builds for this document. -/
theorem render_single_literal_no_residual_witness :
    extractPlaceholders "a [B] c <<D>> e".data =
      [("D".data, ⟨"D".data, "<<D>>".data, [], .angle, none, none⟩),
       ("B".data, ⟨"B".data, "[B]".data, [], .square, none, none⟩)]
    ∧ countOcc "[B]".data "a [B] c <<D>> e".data = 1
    ∧ ¬ "[B]".data <:+: generateCompletedDocument "a [B] c <<D>> e".data
        [("B".data, ⟨⟨"B".data, "[B]".data, [], .square, none, none⟩, "xy".data⟩),
         ("D".data, ⟨⟨"D".data, "<<D>>".data, [], .angle, none, none⟩, "zz".data⟩)] :=
  ⟨by decide, by decide,
   render_single_literal_no_residual "a [B] c <<D>> e".data "[B]".data "xy".data "B".data
     .square [("D".data, ⟨⟨"D".data, "<<D>>".data, [], .angle, none, none⟩, "zz".data⟩)]
     (by decide) (by decide) (by decide) (by decide) (by decide) (by decide) (by decide)⟩

/-! ### Key-membership lemmas for the currency pass (claim C4) -/

theorem mgetSomeMemKeys {α : Type} {m : List (Str × α)} {k : Str}
    (h : (mget m k).isSome = true) : k ∈ keysOf m := by
  unfold mget at h
  cases hf : m.find? (fun p => decide (p.1 = k)) with
  | none => rw [hf] at h; simp at h
  | some p =>
    have hmem := List.mem_of_find?_eq_some hf
    have hpk : p.1 = k := by simpa using List.find?_some hf
    exact List.mem_map.mpr ⟨p, hmem, hpk⟩

theorem memKeysMsetSelf {α : Type} (m : List (Str × α)) (k : Str) (v : α) :
    k ∈ keysOf (mset m k v) := by
  unfold mset
  by_cases h : (mget m k).isSome = true
  · rw [if_pos h]
    obtain ⟨p, hp, hpk⟩ := List.mem_map.mp (mgetSomeMemKeys h)
    unfold keysOf
    exact List.mem_map.mpr ⟨(k, v), List.mem_map.mpr ⟨p, hp, by simp [hpk]⟩, rfl⟩
  · rw [if_neg h]
    unfold keysOf
    exact List.mem_map.mpr ⟨(k, v), List.mem_append_right _ (List.mem_singleton_self _), rfl⟩

theorem memKeysMsetMono {α : Type} {m : List (Str × α)} {k' : Str} (k : Str) (v : α)
    (h : k' ∈ keysOf m) : k' ∈ keysOf (mset m k v) := by
  unfold mset
  by_cases hs : (mget m k).isSome = true
  · rw [if_pos hs]
    obtain ⟨p, hp, hpk⟩ := List.mem_map.mp h
    unfold keysOf
    by_cases hpe : p.1 = k
    · exact List.mem_map.mpr ⟨(k, v), List.mem_map.mpr ⟨p, hp, by simp [hpe]⟩,
        by rw [← hpk, hpe]⟩
    · exact List.mem_map.mpr ⟨p, List.mem_map.mpr ⟨p, hp, by simp [hpe]⟩, hpk⟩
  · rw [if_neg hs]
    unfold keysOf at h ⊢
    rw [List.map_append]
    exact List.mem_append_left _ h

theorem memKeysCurrencyStep {k' : Str} (st : CurState) (b : CBlank)
    (h : k' ∈ keysOf st.ph) : k' ∈ keysOf (currencyStep st b).ph := by
  unfold currencyStep
  split_ifs <;> first | exact h | exact memKeysMsetMono _ _ h

theorem memKeysCurrencyFold {k' : Str} (l : List CBlank) :
    ∀ st : CurState, k' ∈ keysOf st.ph → k' ∈ keysOf (l.foldl currencyStep st).ph := by
  induction l with
  | nil => exact fun _ h => h
  | cons b bs ih => exact fun st h => ih _ (memKeysCurrencyStep st b h)

/-- The invariant tying the `Seen` sets of the currency pass to the presence
of the corresponding keys. -/
def curInv (st : CurState) : Prop :=
  (∀ f ∈ st.cap, capKey ∈ keysOf st.ph) ∧ (∀ f ∈ st.pur, paKey ∈ keysOf st.ph)

theorem curInvStep (st : CurState) (b : CBlank) (h : curInv st) :
    curInv (currencyStep st b) := by
  obtain ⟨h1, h2⟩ := h
  unfold currencyStep
  by_cases hv : hasValKw b.ctx = true
  · rw [if_pos hv]
    by_cases hs : b.format ∈ st.cap
    · rw [if_pos hs]; exact ⟨h1, h2⟩
    · rw [if_neg hs]
      exact ⟨fun f _ => memKeysMsetSelf _ _ _, fun f hf => memKeysMsetMono _ _ (h2 f hf)⟩
  · rw [if_neg hv]
    by_cases hp : hasPurKw b.ctx = true
    · rw [if_pos hp]
      by_cases hs : b.format ∈ st.pur
      · rw [if_pos hs]; exact ⟨h1, h2⟩
      · rw [if_neg hs]
        exact ⟨fun f hf => memKeysMsetMono _ _ (h1 f hf), fun f _ => memKeysMsetSelf _ _ _⟩
    · rw [if_neg hp]
      by_cases he : st.pur = []
      · rw [if_pos he]
        exact ⟨fun f hf => memKeysMsetMono _ _ (h1 f hf), fun f _ => memKeysMsetSelf _ _ _⟩
      · rw [if_neg he]
        by_cases hc : st.cap = []
        · rw [if_pos hc]
          exact ⟨fun f _ => memKeysMsetSelf _ _ _, fun f hf => memKeysMsetMono _ _ (h2 f hf)⟩
        · rw [if_neg hc]; exact ⟨h1, h2⟩

theorem curInvFold (l : List CBlank) : ∀ st, curInv st → curInv (l.foldl currencyStep st) := by
  induction l with
  | nil => exact fun _ h => h
  | cons b bs ih => exact fun st h => ih _ (curInvStep st b h)

theorem capKeyAfterStep (st : CurState) (b : CBlank) (hJ : curInv st)
    (hb : hasValKw b.ctx = true) : capKey ∈ keysOf (currencyStep st b).ph := by
  unfold currencyStep
  rw [if_pos hb]
  by_cases hs : b.format ∈ st.cap
  · rw [if_pos hs]; exact hJ.1 b.format hs
  · rw [if_neg hs]; exact memKeysMsetSelf _ _ _

theorem paKeyAfterStep (st : CurState) (b : CBlank) (hJ : curInv st)
    (hp : hasPurKw b.ctx = true) (hv : hasValKw b.ctx = false) :
    paKey ∈ keysOf (currencyStep st b).ph := by
  unfold currencyStep
  rw [if_neg (by simp [hv]), if_pos hp]
  by_cases hs : b.format ∈ st.pur
  · rw [if_pos hs]; exact hJ.2 b.format hs
  · rw [if_neg hs]; exact memKeysMsetSelf _ _ _

/-- C4 (amended): for every currency blank, a valuation-family keyword
(`valuation` / `cap` / `post-money`) in the ±100-character context assigns
"Post-Money Valuation Cap"; a purchase-family keyword assigns "Purchase
Amount" only when no valuation-family keyword is present (the valuation
branch is checked first); and for two blanks with no keywords at all the
first becomes "Purchase Amount" and the second "Post-Money Valuation Cap". -/
theorem currency_blank_assignment (text : Str) (b : CBlank)
    (hmem : b ∈ currencyBlanksOf text) :
    (hasValKw b.ctx = true → capKey ∈ keysOf (currencyPass text).ph)
    ∧ (hasPurKw b.ctx = true → hasValKw b.ctx = false →
        paKey ∈ keysOf (currencyPass text).ph)
    ∧ (∀ b2 : CBlank, currencyBlanksOf text = [b, b2] →
        hasValKw b.ctx = false → hasPurKw b.ctx = false →
        hasValKw b2.ctx = false → hasPurKw b2.ctx = false →
        (currencyPass text).ph =
          [(paKey, mkCurrencyInfo paKey b.format),
           (capKey, mkCurrencyInfo capKey b2.format)]) := by
  obtain ⟨l1, l2, hsplit⟩ := List.append_of_mem hmem
  have hfold : currencyPass text =
      l2.foldl currencyStep (currencyStep (l1.foldl currencyStep ⟨[], [], []⟩) b) := by
    unfold currencyPass
    rw [hsplit, List.foldl_append, List.foldl_cons]
  have hJ : curInv (l1.foldl currencyStep ⟨[], [], []⟩) :=
    curInvFold l1 _ ⟨by simp, by simp⟩
  refine ⟨?_, ?_, ?_⟩
  · intro hv
    rw [hfold]
    exact memKeysCurrencyFold l2 _ (capKeyAfterStep _ b hJ hv)
  · intro hp hv
    rw [hfold]
    exact memKeysCurrencyFold l2 _ (paKeyAfterStep _ b hJ hp hv)
  · intro b2 heq hv1 hp1 hv2 hp2
    unfold currencyPass
    rw [heq]
    simp [currencyStep, hv1, hp1, hv2, hp2, sadd, mset, mget, paKey, capKey]

/-- C4 (counterexample): in `"purchase valuation $[__]"` the blank's context
contains the purchase keyword, yet it is assigned "Post-Money Valuation Cap"
(the valuation branch runs first), so no "Purchase Amount" entry exists. -/
theorem currency_keyword_precedence_counterexample :
    (currencyBlanksOf "purchase valuation $[__]".data).map (fun b => hasPurKw b.ctx) = [true]
    ∧ mget (extractPlaceholders "purchase valuation $[__]".data) paKey = none
    ∧ (mget (extractPlaceholders "purchase valuation $[__]".data) capKey).isSome = true := by
  refine ⟨by decide, by decide, by decide⟩

def docC4W : Str := "x $[__] y $[___] z".data

/-- Witness for `currency_blank_assignment`: a document with two
keyword-free blanks gets "Purchase Amount" for the first and "Post-Money
Valuation Cap" for the second; the later passes leave both entries in the
final catalog unchanged. -/
theorem currency_blank_assignment_witness :
    currencyBlanksOf docC4W =
      [⟨2, "$[__]".data, lowerStr docC4W⟩, ⟨10, "$[___]".data, lowerStr docC4W⟩]
    ∧ (currencyPass docC4W).ph =
        [(paKey, mkCurrencyInfo paKey "$[__]".data),
         (capKey, mkCurrencyInfo capKey "$[___]".data)]
    ∧ extractPlaceholders docC4W =
        [(paKey, mkCurrencyInfo paKey "$[__]".data),
         (capKey, mkCurrencyInfo capKey "$[___]".data)] := by
  have heq : currencyBlanksOf docC4W =
      [⟨2, "$[__]".data, lowerStr docC4W⟩, ⟨10, "$[___]".data, lowerStr docC4W⟩] := by decide
  refine ⟨heq, ?_, by decide⟩
  exact (currency_blank_assignment docC4W ⟨2, "$[__]".data, lowerStr docC4W⟩
      (by rw [heq]; exact List.mem_cons_self _ _)).2.2
    ⟨10, "$[___]".data, lowerStr docC4W⟩ heq
    (by decide) (by decide) (by decide) (by decide)

/-! ### Partition and ordering lemmas for `handleDownload` (claim C7) -/

theorem dlPartitionFstSpec (l : List (Str × PlaceholderData)) :
    ∀ acc : List DlField × List DlField,
      (∀ f ∈ acc.1, isDlLabelField f.data = true ∧ f.data.info.position.isSome = true) →
      ∀ f ∈ (l.foldl dlStep acc).1,
        isDlLabelField f.data = true ∧ f.data.info.position.isSome = true := by
  induction l with
  | nil => exact fun _ hacc => hacc
  | cons kd l ih =>
    intro acc hacc
    rw [List.foldl_cons]
    apply ih
    unfold dlStep
    by_cases hc : (isDlLabelField kd.2 && kd.2.info.position.isSome) = true
    · rw [if_pos hc]
      intro f hf
      rcases List.mem_append.mp hf with h | h
      · exact hacc f h
      · have hfe : f = ⟨kd.1, kd.2⟩ := by simpa using h
        rw [hfe]
        simpa using hc
    · rw [if_neg hc]
      exact hacc

theorem dlPartitionSndSpec (l : List (Str × PlaceholderData)) :
    ∀ acc : List DlField × List DlField,
      (∀ f ∈ acc.2, ¬ (isDlLabelField f.data = true ∧ f.data.info.position.isSome = true)) →
      ∀ f ∈ (l.foldl dlStep acc).2,
        ¬ (isDlLabelField f.data = true ∧ f.data.info.position.isSome = true) := by
  induction l with
  | nil => exact fun _ hacc => hacc
  | cons kd l ih =>
    intro acc hacc
    rw [List.foldl_cons]
    apply ih
    unfold dlStep
    by_cases hc : (isDlLabelField kd.2 && kd.2.info.position.isSome) = true
    · rw [if_pos hc]
      exact hacc
    · rw [if_neg hc]
      intro f hf
      rcases List.mem_append.mp hf with h | h
      · exact hacc f h
      · have hfe : f = ⟨kd.1, kd.2⟩ := by simpa using h
        rw [hfe]
        intro hcontra
        exact hc (by simpa using hcontra)

/-- C7: `handleDownload` processes every label-kind entry (label-form
`originalFormat` with a recorded position) before any other entry, and the
label-kind entries are processed in strictly descending order of their
recorded positions whenever those positions are pairwise distinct (V8's
stable sort with comparator `b.position - a.position`). -/
theorem download_label_order (filledData : List (Str × PlaceholderData))
    (hnd : ((dlPartition filledData).1.map dlPos).Nodup) :
    (∀ f ∈ (dlProcessOrder filledData).take (sortDescPos (dlPartition filledData).1).length,
       isDlLabelField f.data = true ∧ f.data.info.position.isSome = true)
    ∧ (∀ f ∈ (dlProcessOrder filledData).drop (sortDescPos (dlPartition filledData).1).length,
       ¬ (isDlLabelField f.data = true ∧ f.data.info.position.isSome = true))
    ∧ ((dlProcessOrder filledData).take
        (sortDescPos (dlPartition filledData).1).length).Pairwise
          (fun a b => dlPos b < dlPos a) := by
  have hperm : List.Perm (sortDescPos (dlPartition filledData).1) (dlPartition filledData).1 :=
    List.perm_insertionSort _ _
  have htake : (dlProcessOrder filledData).take (sortDescPos (dlPartition filledData).1).length
      = sortDescPos (dlPartition filledData).1 := by
    unfold dlProcessOrder
    exact List.take_left _ _
  have hdrop : (dlProcessOrder filledData).drop (sortDescPos (dlPartition filledData).1).length
      = (dlPartition filledData).2 := by
    unfold dlProcessOrder
    exact List.drop_left _ _
  refine ⟨?_, ?_, ?_⟩
  · intro f hf
    rw [htake] at hf
    exact dlPartitionFstSpec filledData ([], []) (by simp) f (hperm.mem_iff.mp hf)
  · intro f hf
    rw [hdrop] at hf
    exact dlPartitionSndSpec filledData ([], []) (by simp) f hf
  · rw [htake]
    have hsorted : List.Sorted (fun a b => dlPos b ≤ dlPos a)
        (sortDescPos (dlPartition filledData).1) := by
      haveI : IsTotal DlField (fun a b => dlPos b ≤ dlPos a) := ⟨fun a b => Nat.le_total _ _⟩
      haveI : IsTrans DlField (fun a b => dlPos b ≤ dlPos a) :=
        ⟨fun _ _ _ h1 h2 => Nat.le_trans h2 h1⟩
      exact List.sorted_insertionSort _ _
    have hnd' : ((sortDescPos (dlPartition filledData).1).map dlPos).Nodup :=
      ((hperm.map dlPos).nodup_iff).mpr hnd
    have hpw : (sortDescPos (dlPartition filledData).1).Pairwise
        (fun a b => dlPos a ≠ dlPos b) := List.pairwise_map.mp hnd'
    exact (hsorted.and hpw).imp (fun h => Nat.lt_of_le_of_ne h.1 (Ne.symm h.2))

def dlWitnessData : List (Str × PlaceholderData) :=
  [("Company Name".data,
    ⟨⟨"Company Name".data, "[Company Name]".data, [], .square, none, none⟩, "v".data⟩),
   ("Company Address".data,
    ⟨⟨"Company Address".data, "Address:".data, [], .square, some .company, some 3⟩, "v".data⟩),
   ("Investor Address".data,
    ⟨⟨"Investor Address".data, "Address:".data, [], .square, some .investor, some 10⟩, "v".data⟩)]

/-- Witness for `download_label_order` at a concrete filled map with two
label entries (positions 3 and 10) and one literal entry. -/
theorem download_label_order_witness :
    ((dlPartition dlWitnessData).1.map dlPos).Nodup
    ∧ ((dlProcessOrder dlWitnessData).take
        (sortDescPos (dlPartition dlWitnessData).1).length).Pairwise
          (fun a b => dlPos b < dlPos a) :=
  ⟨by decide, (download_label_order dlWitnessData (by decide)).2.2⟩

/-! ### Concrete documents for claims C2, C5, C6, C10 -/

/-- When the key is already bound, `mset` maps every pair in place, so the
key set is unchanged. -/
theorem keysOfMsetOfIsSome {α : Type} {m : List (Str × α)} {k : Str} (v : α)
    (h : (mget m k).isSome = true) : keysOf (mset m k v) = keysOf m := by
  unfold mset
  rw [if_pos h]
  unfold keysOf
  rw [List.map_map]
  apply List.map_congr_left
  intro p _
  by_cases hp : p.1 = k
  · simp [hp]
  · simp [hp]

/-- When the key is already bound, `mset` stores the new value under it. -/
theorem mgetMsetSelfOfIsSome {α : Type} :
    ∀ (m : List (Str × α)) (k : Str) (v : α), (mget m k).isSome = true →
      mget (m.map (fun p => if p.1 = k then (k, v) else p)) k = some v := by
  intro m
  induction m with
  | nil => intro k v h; simp [mget] at h
  | cons p m' ih =>
    intro k v h
    by_cases hp : p.1 = k
    · simp [mget, hp]
    · have h' : (mget m' k).isSome = true := by
        unfold mget at h ⊢
        rw [List.find?_cons_of_neg] at h
        · exact h
        · simp [hp]
      have := ih k v h'
      unfold mget at this ⊢
      rw [List.map_cons, if_neg hp, List.find?_cons_of_neg]
      · exact this
      · simp [hp]

def docC2 : Str := "COMPANY\nAddress:\nAddress:\n".data

/-- C2 (counterexample): in `"COMPANY\nAddress:\nAddress:\n"` the two
`Address:` occurrences (offsets 8 and 17) both resolve to `(company,
Address)` with different offsets, yet the catalog — a `Map` keyed by the
normalized key — holds exactly ONE entry: the second `Map.set` overwrote
the first instead of keeping both as distinct entries. -/
theorem catalog_duplicate_label_counterexample :
    extractPlaceholders docC2 =
      [("Company Address".data,
        ⟨"Company Address".data, "Address:".data, [], .square, some .company, some 17⟩)] := by
  decide

/-- C2 (amended): two occurrences resolving to the same `(party, label)` pair
at different offsets are NOT both kept: in general, processing the later
occurrence when an entry with a different recorded offset already holds the
key leaves the key set unchanged (no second entry appears) and overwrites
the stored entry with the later occurrence's party and offset; on the
concrete document the catalog retains a single "Company Address" entry whose
offset is the second occurrence's. Only a same-offset re-detection leaves
the existing entry untouched. -/
theorem catalog_same_key_offset_overwrites :
    (∀ (sigs : List SigMatch) (lastC lastI : Option SigMatch) (label : Str) (ph : PMap)
        (occ : Nat × Str) (p : Party) (e : PlaceholderInfo),
      resolveLabelCtx sigs lastC lastI occ.1 = some p →
      mget ph (labelKeyFor p label) = some e →
      ¬ e.position = some occ.1 →
      keysOf (labelOccStep sigs lastC lastI label ph occ) = keysOf ph
      ∧ mget (labelOccStep sigs lastC lastI label ph occ) (labelKeyFor p label) =
          some ⟨labelKeyFor p label, trimStr occ.2, [], .square, some p, some occ.1⟩)
    ∧ mget (extractPlaceholders docC2) "Company Address".data =
      some ⟨"Company Address".data, "Address:".data, [], .square, some .company, some 17⟩
    ∧ (keysOf (extractPlaceholders docC2)).count "Company Address".data = 1 := by
  refine ⟨?_, by decide, by decide⟩
  intro sigs lastC lastI label ph occ p e hres hget hpos
  unfold labelOccStep
  rw [hres]
  dsimp only
  rw [hget]
  dsimp only
  rw [if_neg hpos]
  have hsome : (mget ph (labelKeyFor p label)).isSome = true := by rw [hget]; rfl
  constructor
  · exact keysOfMsetOfIsSome _ hsome
  · unfold mset
    rw [if_pos hsome]
    exact mgetMsetSelfOfIsSome ph (labelKeyFor p label) _ hsome

/-- Witness for the general part of `catalog_same_key_offset_overwrites`: a
second company `Address:` occurrence at offset 17 overwrites the entry
recorded at offset 8. -/
theorem catalog_same_key_offset_overwrites_witness :
    resolveLabelCtx [⟨0, .company, "COMPANY".data⟩] (some ⟨0, .company, "COMPANY".data⟩) none 17
      = some .company
    ∧ mget [("Company Address".data,
        (⟨"Company Address".data, "Address:".data, [], .square, some .company, some 8⟩ : PlaceholderInfo))]
        (labelKeyFor .company "Address".data) =
        some ⟨"Company Address".data, "Address:".data, [], .square, some .company, some 8⟩
    ∧ (keysOf (labelOccStep [⟨0, .company, "COMPANY".data⟩] (some ⟨0, .company, "COMPANY".data⟩)
          none "Address".data
          [("Company Address".data,
            ⟨"Company Address".data, "Address:".data, [], .square, some .company, some 8⟩)]
          (17, "Address:".data)) =
        keysOf [("Company Address".data,
          (⟨"Company Address".data, "Address:".data, [], .square, some .company, some 8⟩ : PlaceholderInfo))]
      ∧ mget (labelOccStep [⟨0, .company, "COMPANY".data⟩] (some ⟨0, .company, "COMPANY".data⟩)
          none "Address".data
          [("Company Address".data,
            ⟨"Company Address".data, "Address:".data, [], .square, some .company, some 8⟩)]
          (17, "Address:".data)) (labelKeyFor .company "Address".data) =
        some ⟨labelKeyFor .company "Address".data, trimStr "Address:".data, [], .square,
          some .company, some 17⟩) :=
  ⟨by decide, by decide,
   catalog_same_key_offset_overwrites.1 [⟨0, .company, "COMPANY".data⟩]
     (some ⟨0, .company, "COMPANY".data⟩) none "Address".data
     [("Company Address".data,
       ⟨"Company Address".data, "Address:".data, [], .square, some .company, some 8⟩)]
     (17, "Address:".data) .company
     ⟨"Company Address".data, "Address:".data, [], .square, some .company, some 8⟩
     (by decide) (by decide) (by decide)⟩

def docC5 : Str := "COMPANY\nAddress:\nxyz\nINVESTOR\nAddress:\n".data

def docC5X : Str := "COMPANY\nINVESTOR\nAddress:\nINVESTOR\nAddress:\n".data

/-- C5 (counterexample): `docC5X` contains a `COMPANY` marker, then an
`Address:` label at line end, then later an `INVESTOR` marker, then another
`Address:` label — the shape the claim quantifies over — yet the first
`Address:` is assigned to the investor (its nearest preceding marker is an
`INVESTOR` occurrence), so no "Company Address" entry exists at all.
The second conjunct shows the failure also under the strictest reading with
no extra markers: for a document `"COMPANY" ++ (3000 filler characters) ++
"\nAddress:\nINVESTOR\nAddress:\n"` the markers sit at offsets 0 and 3017
and the first label at 3008, and the resolution assigns it to the investor:
the company marker is outside the 3000-character window, so the
after-within-500 rule fires on the upcoming `INVESTOR` marker. -/
theorem address_party_resolution_counterexample :
    extractPlaceholders docC5X =
      [("Investor Address".data,
        ⟨"Investor Address".data, "Address:".data, [], .square, some .investor, some 35⟩)]
    ∧ resolveLabelCtx
        [⟨0, .company, "COMPANY".data⟩, ⟨3017, .investor, "INVESTOR".data⟩]
        (some ⟨0, .company, "COMPANY".data⟩) (some ⟨3017, .investor, "INVESTOR".data⟩)
        3008 = some .investor := by
  refine ⟨by decide, by decide⟩

/-- C5 (amended): the assignment holds when each `Address:` label's nearest
marker before it (within the 3000-character window) is the intended one —
as in the canonical document `"COMPANY\nAddress:\nxyz\nINVESTOR\nAddress:\n"`,
where the first label resolves to party=company (key "Company Address") and
the second to party=investor (key "Investor Address"). -/
theorem address_party_resolution_canonical :
    mget (extractPlaceholders docC5) "Company Address".data =
      some ⟨"Company Address".data, "Address:".data, [], .square, some .company, some 8⟩
    ∧ mget (extractPlaceholders docC5) "Investor Address".data =
      some ⟨"Investor Address".data, "Address:".data, [], .square, some .investor, some 30⟩ := by
  refine ⟨by decide, by decide⟩

def docC6 : Str := "see [Alpha] and \x7bBeta\x7d plus \x7b\x7bGamma\x7d\x7d or <<Delta>> end".data

/-- Number of catalog entries whose `originalFormat` is `t`. -/
def fmtCount (m : PMap) (t : Str) : Nat :=
  (m.filter (fun p => decide (p.2.originalFormat = t))).length

/-- C6 (counterexample): in `"<<N>> [N]"` the token `"[N]"` appears exactly
once, but its normalized key "N" is already taken by the earlier `<<N>>`
entry, so the occurrence is skipped and NO catalog entry has
`originalToken = "[N]"`. -/
theorem literal_token_key_collision_counterexample :
    countOcc "[N]".data "<<N>> [N]".data = 1
    ∧ fmtCount (extractPlaceholders "<<N>> [N]".data) "[N]".data = 0 := by
  refine ⟨by decide, by decide⟩

/-- C6 (amended): a literal token appearing exactly once yields exactly one
catalog entry with that `originalToken` unless its normalized key collides
with an already-present entry, in which case the occurrence is skipped
entirely (see the counterexample). Shown at a canonical document holding one
token of each of the four delimiter kinds. -/
theorem literal_token_single_entry_canonical :
    (countOcc "[Alpha]".data docC6 = 1
      ∧ fmtCount (extractPlaceholders docC6) "[Alpha]".data = 1)
    ∧ (countOcc "\x7bBeta\x7d".data docC6 = 1
      ∧ fmtCount (extractPlaceholders docC6) "\x7bBeta\x7d".data = 1)
    ∧ (countOcc "\x7b\x7bGamma\x7d\x7d".data docC6 = 1
      ∧ fmtCount (extractPlaceholders docC6) "\x7b\x7bGamma\x7d\x7d".data = 1)
    ∧ (countOcc "<<Delta>>".data docC6 = 1
      ∧ fmtCount (extractPlaceholders docC6) "<<Delta>>".data = 1) := by
  refine ⟨⟨by decide, by decide⟩, ⟨by decide, by decide⟩,
    ⟨by decide, by decide⟩, ⟨by decide, by decide⟩⟩

def docC10 : Str := "a \x7b\x7bAlpha\x7d\x7d b".data

/-- C10 (amended): when the single-curly scan reaches the double-curly
token's first brace (no earlier unmatched `{` swallows it, as at this
canonical document), scanning produces, besides the double-curly entry
keyed "Alpha" with `originalToken = "{{Alpha}}"`, a second curly-kind entry
keyed `"{Alpha"` with `originalToken = "{{Alpha}"`, because the single-curly
pattern also matches inside the double-curly token; with an earlier
unmatched `{` in the text no such entry arises (see the counterexample). -/
theorem double_curly_spurious_entry :
    mget (extractPlaceholders docC10) "Alpha".data =
      some ⟨"Alpha".data, "\x7b\x7bAlpha\x7d\x7d".data, [], .doubleCurly, none, none⟩
    ∧ mget (extractPlaceholders docC10) ('\x7b' :: "Alpha".data) =
      some ⟨'\x7b' :: "Alpha".data, "\x7b\x7bAlpha\x7d".data, [], .curly, none, none⟩ := by
  refine ⟨by decide, by decide⟩

def docC10X : Str := "\x7b a \x7b\x7bAlpha\x7d\x7d b".data

/-- C10 (counterexample): the claim quantifies over every text containing
`{{X}}`, but an earlier unmatched `{` captures the single-curly scan: in
`"{ a {{Alpha}} b"` the pattern's first match starts at the leading brace
(token `"{ a {{Alpha}"`, trimmed capture `"a {{Alpha"`), so the catalog
holds no entry keyed `"{Alpha"` and no entry with
`originalToken = "{{Alpha}"`, although the text contains `{{Alpha}}` and
the double-curly entry for the non-colliding key "Alpha" is created. -/
theorem double_curly_shadowed_counterexample :
    includesStr docC10X "\x7b\x7bAlpha\x7d\x7d".data = true
    ∧ keysOf (extractPlaceholders docC10X) = ["Alpha".data, "a \x7b\x7bAlpha".data]
    ∧ mget (extractPlaceholders docC10X) ('\x7b' :: "Alpha".data) = none
    ∧ fmtCount (extractPlaceholders docC10X) "\x7b\x7bAlpha\x7d".data = 0 := by
  refine ⟨by decide, by decide, by decide, by decide⟩

end Lexsy
